import Mathlib

/-!
# Verification of the node-simctl command/parsing layer

Shallow embedding of `src/lib/simctl.js`.  Each JavaScript function that the
claims are about is translated into an executable Lean definition:

* pure string manipulation becomes functions on `String` / `List Char`;
* the effectful command invocations are modelled by passing the outcome of the
  external executor (`Except ExecError ExecResult`) as an explicit argument;
* JavaScript objects used as string-keyed dictionaries are modelled as
  association lists that keep first-insertion key order (own properties only;
  prototype-chain lookup is outside the model).  Indexing an object with the
  JavaScript `undefined` value coerces the key to the string `"undefined"`,
  which the model reproduces where the source can perform such an access.
* JavaScript truthiness of strings (`""`, `null`/`undefined` are falsy) is
  modelled explicitly at each use site.
-/

namespace Simctl

/-! ## Character classes and small string utilities (JS semantics) -/

/-- JS `\s` / `String.prototype.trim` whitespace, restricted to the code points
that can occur in the tool output handled here (ASCII range). -/
def isJsSpace (c : Char) : Bool :=
  c = ' ' || c = '\t' || c = '\n' || c = '\r' || c = '\x0b' || c = '\x0c'

/-- JS `\w`, exactly `[A-Za-z0-9_]`. -/
def isWordChar (c : Char) : Bool :=
  ('a' ≤ c && c ≤ 'z') || ('A' ≤ c && c ≤ 'Z') || ('0' ≤ c && c ≤ '9') || c = '_'

/-- JS `.` (without the `s` flag) matches everything except line terminators. -/
def isDotChar (c : Char) : Bool :=
  !(c = '\n' || c = '\r' || c = '\u2028' || c = '\u2029')

/-- `String.prototype.trim` on a character list. -/
def trimChars (cs : List Char) : List Char :=
  ((cs.dropWhile isJsSpace).reverse.dropWhile isJsSpace).reverse

/-- `String.prototype.trim`. -/
def jsTrim (s : String) : String :=
  String.mk (trimChars s.toList)

/-- `String.prototype.split` with a single-character separator, on lists:
`"".split(sep)` is `[""]`, and every separator occurrence cuts. -/
def splitCh (sep : Char) : List Char → List (List Char)
  | [] => [[]]
  | c :: t =>
    let r := splitCh sep t
    if c = sep then [] :: r
    else
      match r with
      | [] => [[c]]
      | h :: t2 => (c :: h) :: t2

/-- `split` on a `String`, returning `String` pieces. -/
def splitStr (sep : Char) (s : String) : List String :=
  (splitCh sep s.toList).map String.mk

/-- First occurrence replacement: JS `str.replace(pattern, '')` for a literal
string pattern (removes the first occurrence only; identity if absent). -/
def removeFirst (pat : List Char) : List Char → List Char
  | [] => []
  | c :: t =>
    if pat.isPrefixOf (c :: t) then (c :: t).drop pat.length
    else c :: removeFirst pat t

/-- Substring containment (used to state what an error message carries). -/
def containsSub (hay needle : List Char) : Bool :=
  match hay with
  | [] => decide (needle = [])
  | _ :: t => needle.isPrefixOf hay || containsSub t needle

/-- Substring containment on `String`. -/
def strContains (hay needle : String) : Bool :=
  containsSub hay.toList needle.toList

/-! ## JS objects as insertion-ordered association lists -/

/-- Lookup of an own property: first entry whose key matches. -/
def objGet {α : Type} (m : List (String × α)) (k : String) : Option α :=
  (m.find? (fun p => p.1 = k)).map (fun p => p.2)

/-- `obj[k] = v` where `v` replaces an existing own property in place or is
appended as a fresh key (JS objects keep first-insertion order for
non-array-index string keys). -/
def objSet {α : Type} (m : List (String × α)) (k : String) (v : α) :
    List (String × α) :=
  if m.any (fun p => p.1 = k) then
    m.map (fun p => if p.1 = k then (k, v) else p)
  else m ++ [(k, v)]

/-- `obj[k].push r` for an object whose values are lists. -/
def objPush {α : Type} (m : List (String × List α)) (k : String) (r : α) :
    List (String × List α) :=
  m.map (fun p => if p.1 = k then (p.1, p.2 ++ [r]) else p)

/-! ## Command Invoker (`simCommand`, lines 9–31) -/

/-- Outcome of the external process-execution collaborator. -/
structure ExecResult where
  stdout : String
  stderr : String
deriving DecidableEq

/-- Error raised by the external executor; `stderr` is `none` when no standard
error was captured (JS: the `stderr` property is absent/undefined), and an
empty captured string is falsy in the source's `e.stderr` test. -/
structure ExecError where
  stderr : Option String
  message : String
deriving DecidableEq

/-- Errors a command invocation can surface: either the classified
`ToolInvocationError` built by `log.errorAndThrow(string)` (which throws an
`Error` with that message), or the underlying executor error rethrown as-is. -/
inductive SimCmdError
  | toolInvocation (message : String)
  | underlying (e : ExecError)
deriving DecidableEq

/-- Lines 10–11: the full argument vector is `[command, ...args]`. -/
def simCommandArgs (command : String) (args : List String) : List String :=
  command :: args

/-- Line 14–16: `_.mapKeys(env, (value, key) => 'SIMCTL_CHILD_' + key)`. -/
def mapKeysChild (env : List (String × String)) : List (String × String) :=
  env.map (fun p => ("SIMCTL_CHILD_" ++ p.1, p.2))

/-- `_.defaults(obj, src)`: `obj`'s own entries win; entries of `src` whose key
is not an own key of `obj` are added after, in `src` order. -/
def lodashDefaults (obj src : List (String × String)) : List (String × String) :=
  obj ++ src.filter (fun p => !obj.any (fun q => q.1 = p.1))

/-- Lines 14–16: the child environment passed to the executor. -/
def childEnv (env processEnv : List (String × String)) : List (String × String) :=
  lodashDefaults (mapKeysChild env) processEnv

/-- Lines 18–30: outcome classification of `simCommand`, as a function of the
executor's outcome.  On success the result is returned; on failure the error
is propagated unchanged when `logErrors` is false, classified when a truthy
`stderr` was captured, and rethrown as-is otherwise. -/
def simCommandOutcome (command : String) (logErrors : Bool)
    (res : Except ExecError ExecResult) : Except SimCmdError ExecResult :=
  match res with
  | .ok r => .ok r
  | .error e =>
    if !logErrors then .error (.underlying e)
    else
      match e.stderr with
      | some s =>
        if s ≠ "" then
          .error (.toolInvocation
            ("simctl error running " ++ "\x27" ++ command ++ "\x27" ++ ": " ++ jsTrim s))
        else .error (.underlying e)
      | none => .error (.underlying e)

/-! ## `createDevice` (lines 83–101) -/

/-- Lines 88–89: udid extraction from the create invocation's stdout.
`_.last(out.stdout.trim().split('\n')).replace('Create Ended: ', '')`, then
`.split('|')[0].trim()`.  `split` never returns an empty array, so `_.last`
and `[0]` always find an element. -/
def extractUdid (stdout : String) : String :=
  let lines := splitCh '\n' (jsTrim stdout).toList
  let lastLine := lines.getLastD []
  let finalLine := removeFirst "Create Ended: ".toList lastLine
  jsTrim (String.mk ((splitCh '|' finalLine).headD []))

/-- The `stderr` property read by a caller that catches what `simCommand`
threw: the string-built `Error` from `log.errorAndThrow(string)` has no
`stderr` property, while a rethrown underlying error keeps its own. -/
def simCmdErrorStderr : SimCmdError → Option String
  | .toolInvocation _ => none
  | .underlying e => e.stderr

/-- Lines 90–99: the message of the error thrown when the create invocation
fails, classified from the `stderr` of the error `createDevice` caught.
With a truthy `stderr` the message embeds the trimmed standard error;
otherwise `new Error(...)` is built from the template string (the extra
constructor arguments are discarded by JS).  Since the caught error has
passed through `simCommand`, its `stderr` is never truthy and the first
branch is unreachable — the spec's open question flags exactly this. -/
def createDeviceErrorMsg (deviceTypeId : String) (e : SimCmdError) : String :=
  match simCmdErrorStderr e with
  | some s =>
    if s ≠ "" then "Could not create simulator. Reason: " ++ jsTrim s
    else "Error creating device type: " ++ deviceTypeId ++ " - Exception: "
  | none => "Error creating device type: " ++ deviceTypeId ++ " - Exception: "

/-- Lines 83–101 as a function of the create invocation's executor outcome.
Line 87 calls `simExec('create', ...)` with default `logErrors = true`, so
what `createDevice`'s catch receives is the error after `simCommand`'s
classification (`simCommandOutcome "create" true`), not the raw executor
error.  On success the source computes `udid` from the output but contains
no `return` statement, so the resolved value is `undefined` (modelled as
`none`); the extraction itself is `extractUdid`. -/
def createDevice (deviceTypeId : String)
    (res : Except ExecError ExecResult) : Except String (Option String) :=
  match simCommandOutcome "create" true res with
  | .ok out =>
    let _udid := extractUdid out.stdout
    .ok none
  | .error e => .error (createDeviceErrorMsg deviceTypeId e)

/-! ## `eraseDevice` (lines 107–114) and the retry primitive -/

/-- Line 112: `parseInt(timeout / 200, 10)`.  For an integer `timeout` with
`0 ≤ timeout < 2^52` the JS float quotient prints in plain decimal notation
and `parseInt` truncates it at the decimal point, which coincides with
natural floor division. -/
def eraseRetries (timeout : Nat) : Nat :=
  timeout / 200

/-- The call structure built by `eraseDevice` (lines 107–114): how many retry
attempts, the sleep between attempts, and the inner invocation each attempt
performs. -/
structure ErasePlan where
  retries : Nat
  delayMs : Nat
  innerCommand : String
  innerTimeoutMs : Nat
  innerArgs : List String
deriving DecidableEq

/-- Lines 107–114: `eraseDevice` computes `retries = parseInt(timeout/200)`
and calls `retryInterval(retries, 200, loopFn)` where
`loopFn = simExec('erase', 10000, [udid])`. -/
def eraseDevicePlan (udid : String) (timeout : Nat) : ErasePlan :=
  ⟨eraseRetries timeout, 200, "erase", 10000, [udid]⟩

/-- Modelled from the spec: the external retry primitive (`retryInterval` of
the `asyncbox` collaborator, §4.2/§6 of the spec): runs the operation up to
`times` total attempts with a fixed sleep between attempts; a success returns
its value, and once attempts are exhausted the last failure propagates.  The
model takes the outcome of the i-th attempt as a function and returns the
final outcome together with the number of attempts actually made (with zero
attempts nothing runs and the JS implementation resolves to `null`,
modelled as `.ok none`). -/
def retryRun {α : Type} (times : Nat) (outcome : Nat → Except String α) :
    Except String (Option α) × Nat :=
  go times 0
where
  go : Nat → Nat → Except String (Option α) × Nat
    | 0, i => (.ok none, i)
    | n + 1, i =>
      match outcome i with
      | .ok a => (.ok (some a), i + 1)
      | .error e =>
        match n with
        | 0 => (.error e, i + 1)
        | m + 1 => go (m + 1) (i + 1)

/-- Running `eraseDevice`'s retry loop against per-attempt outcomes. -/
def eraseDeviceRun (udid : String) (timeout : Nat)
    (outcome : Nat → Except String ExecResult) :
    Except String (Option ExecResult) × Nat :=
  retryRun (eraseDevicePlan udid timeout).retries outcome

/-! ## Delimited-format parser: `getDevices` (lines 187–214) -/

/-- A record of the delimited-format parser: fields read off positionally and
left `undefined` (`none`) when the line has too few segments (lines 196–200). -/
structure DeviceEntryD where
  udid : Option String
  name : Option String
  state : Option String
deriving DecidableEq, Repr

/-- Line 193: `item.split('|').map((x) => x.trim())`. -/
def lineSegments (item : String) : List String :=
  (splitStr '|' item).map jsTrim

/-- Lines 193–200 for one line: the record and the object key it is filed
under.  `itemSegments[4]` of a short line is `undefined`; using it as an
object index coerces it to the property name `"undefined"`. -/
def parseDelimitedLine (item : String) : DeviceEntryD × String :=
  let segs := lineSegments item
  (⟨segs.get? 0, segs.get? 1, segs.get? 2⟩, (segs.get? 4).getD "undefined")

/-- Loop body of lines 192–201: `devices[sdk] = devices[sdk] || []` creates
the key when absent, then the record is pushed. -/
def insertDeviceD (devices : List (String × List DeviceEntryD)) (item : String) :
    List (String × List DeviceEntryD) :=
  let pr := parseDelimitedLine item
  let devices2 :=
    match objGet devices pr.2 with
    | some _ => devices
    | none => devices ++ [(pr.2, [])]
  objPush devices2 pr.2 pr.1

/-- Lines 190–201: fold all lines of `stdout` into the inventory object. -/
def buildInventoryD (stdout : String) : List (String × List DeviceEntryD) :=
  (splitStr '\n' stdout).foldl insertDeviceD []

/-- Total number of device records across all keys of an inventory. -/
def recordCount (inv : List (String × List DeviceEntryD)) : Nat :=
  (inv.map (fun p => p.2.length)).sum

/-- Result shape of `getDevices`: the full mapping, or one SDK's list. -/
inductive GetDevicesResult
  | all (inv : List (String × List DeviceEntryD))
  | filtered (devs : List DeviceEntryD)
deriving DecidableEq, Repr

/-- Lines 187–214: `getDevices`.  `forSdk = none` models the `null` default;
the `if (forSdk)` test is JS truthiness, so the empty string also takes the
no-filter path.  An absent key raises the unknown-SDK error (a present key
always maps to a nonempty, hence truthy, array). -/
def getDevices (stdout : String) (forSdk : Option String) :
    Except String GetDevicesResult :=
  let devices := buildInventoryD stdout
  let truthy := match forSdk with
    | some s => !(s == "")
    | none => false
  if truthy then
    match forSdk with
    | some s =>
      match objGet devices s with
      | some l => .ok (.filtered l)
      | none =>
        .error ("Sdk " ++ "\x27" ++ s ++ "\x27" ++ " was not in list of simctl sdks")
    | none => .ok (.all devices)
  else .ok (.all devices)

/-! ## `getRuntimeID` (lines 174–184) -/

/-- One entry of the JSON listing's `runtimes` array. -/
structure RuntimeInfo where
  name : String
  identifier : String
deriving DecidableEq

/-- Lines 174–184: the loop body reads `item.name`, but no `item` is in scope
anywhere in the file, so the first iteration throws
`ReferenceError: item is not defined`; with an empty `runtimes` array the
loop body never runs and the (never-assigned) `rant` is returned, i.e.
`undefined`.  `sdkName` is never consulted. -/
def getRuntimeID (_sdkName : String) (runtimes : List RuntimeInfo) :
    Except String (Option String) :=
  match runtimes with
  | [] => .ok none
  | _ :: _ => .error "ReferenceError: item is not defined"

/-- Modelled from the spec: the intended runtime lookup (§4.5: "scans a
JSON-format listing for a runtime whose name matches a target platform string
and returns its identifier, or an undefined value if not found"). -/
def getRuntimeIDSpec (sdkName : String) (runtimes : List RuntimeInfo) :
    Option String :=
  (runtimes.find? (fun r => r.name = sdkName)).map (fun r => r.identifier)

/-! ## `getScreenshot` (lines 219–225) -/

/-- Base64 alphabet position. -/
def base64Char (n : Nat) : Char :=
  if n < 26 then Char.ofNat ('A'.toNat + n)
  else if n < 52 then Char.ofNat ('a'.toNat + (n - 26))
  else if n < 62 then Char.ofNat ('0'.toNat + (n - 52))
  else if n = 62 then '+'
  else '/'

/-- RFC 4648 base64 of a byte list (values `< 256`), with padding: the model
of `Buffer.prototype.toString('base64')`. -/
def base64Encode : List Nat → List Char
  | [] => []
  | [a] =>
    [base64Char (a / 4), base64Char (a % 4 * 16), '=', '=']
  | [a, b] =>
    [base64Char (a / 4), base64Char (a % 4 * 16 + b / 16), base64Char (b % 16 * 4), '=']
  | a :: b :: c :: t =>
    base64Char (a / 4) :: base64Char (a % 4 * 16 + b / 16) ::
      base64Char (b % 16 * 4 + c / 64) :: base64Char (c % 64) :: base64Encode t

/-- Lines 219–225: `getScreenshot` as a function of the temp path allocated by
the collaborator and the outcomes of the two fallible steps (the `io`
invocation through `simExec` with default `logErrors = true`, and the file
read).  The second component is the list of paths passed to `fs.rimraf`,
in order: the source calls `rimraf` only after both steps succeeded — there
is no `finally`-style cleanup on the failure paths. -/
def getScreenshot (pathToScreenshotPng : String)
    (execRes : Except ExecError ExecResult)
    (readRes : Except String (List Nat)) :
    Except String String × List String :=
  match simCommandOutcome "io" true execRes with
  | .error e =>
    (.error (match e with
      | .toolInvocation m => m
      | .underlying u => u.message), [])
  | .ok _ =>
    match readRes with
    | .error m => (.error m, [])
    | .ok bytes =>
      (.ok (String.mk (base64Encode bytes)), [pathToScreenshotPng])

/-! ## Helper lemmas about the string utilities -/

theorem splitCh_no_sep (sep : Char) (l : List Char) (h : sep ∉ l) :
    splitCh sep l = [l] := by
  induction l with
  | nil => rfl
  | cons c t ih =>
    have hc : ¬c = sep := fun hc => h (hc ▸ List.mem_cons_self c t)
    have ht : sep ∉ t := fun hm => h (List.mem_cons_of_mem c hm)
    simp only [splitCh, if_neg hc, ih ht]

theorem splitCh_append_sep (sep : Char) (a b : List Char) (h : sep ∉ a) :
    splitCh sep (a ++ sep :: b) = a :: splitCh sep b := by
  induction a with
  | nil => simp [splitCh]
  | cons c t ih =>
    have hc : ¬c = sep := fun hc => h (hc ▸ List.mem_cons_self c t)
    have ht : sep ∉ t := fun hm => h (List.mem_cons_of_mem c hm)
    have hne : splitCh sep (t ++ sep :: b) = t :: splitCh sep b := ih ht
    simp only [List.cons_append, splitCh, if_neg hc]
    rw [show (t.append (sep :: b)) = t ++ sep :: b from rfl, hne]

theorem containsSub_append_middle (a b c : List Char) :
    containsSub (a ++ b ++ c) b = true := by
  induction a with
  | nil =>
    cases b with
    | nil => cases c with
      | nil => rfl
      | cons x t => simp [containsSub]
    | cons x t =>
      simp only [List.nil_append, containsSub, Bool.or_eq_true]
      exact Or.inl (List.isPrefixOf_iff_prefix.mpr (List.prefix_append _ _))
  | cons x t ih =>
    simp only [List.cons_append, containsSub, Bool.or_eq_true]
    exact Or.inr ih

theorem strContains_middle (a b c : String) :
    strContains (a ++ b ++ c) b = true := by
  have h : (a ++ b ++ c).toList = a.toList ++ b.toList ++ c.toList := by
    show (a ++ b ++ c).data = a.data ++ b.data ++ c.data
    simp [String.data_append]
  simp only [strContains, h]
  exact containsSub_append_middle _ _ _

theorem strContains_right (a b : String) :
    strContains (a ++ b) b = true := by
  have h := strContains_middle a b ""
  simpa using h

theorem trimChars_eq_self (l : List Char) (hl : l ≠ [])
    (hh : isJsSpace (l.headD ' ') = false)
    (ht : isJsSpace (l.getLastD ' ') = false) :
    trimChars l = l := by
  have h1 : l.dropWhile isJsSpace = l := by
    cases l with
    | nil => simp at hl
    | cons c t => simp only [List.headD_cons] at hh; simp [List.dropWhile_cons, hh]
  have h2 : l.reverse.dropWhile isJsSpace = l.reverse := by
    cases hrev : l.reverse with
    | nil => simp
    | cons c t =>
      have hc : l.getLastD ' ' = c := by
        have h3 : l.getLast? = some c := by
          rw [← List.head?_reverse, hrev]; rfl
        simp [List.getLastD_eq_getLast?, h3]
      rw [hc] at ht
      simp [List.dropWhile_cons, ht]
  simp only [trimChars, h1, h2, List.reverse_reverse]

theorem removeFirst_head_match (pat r : List Char) (hp : pat ≠ []) :
    removeFirst pat (pat ++ r) = r := by
  cases hpat : pat with
  | nil => exact absurd hpat hp
  | cons pc pt =>
    have hpre : (pc :: pt).isPrefixOf (pc :: (pt ++ r)) = true := by
      rw [← List.cons_append]
      exact List.isPrefixOf_iff_prefix.mpr (List.prefix_append _ _)
    have hd : (pc :: (pt ++ r)).drop (pc :: pt).length = r := by
      rw [← List.cons_append]
      exact List.drop_left _ _
    calc removeFirst (pc :: pt) ((pc :: pt) ++ r)
        = removeFirst (pc :: pt) (pc :: (pt ++ r)) := by rw [List.cons_append]
      _ = r := by rw [removeFirst, if_pos hpre, hd]

/-! ## Lemmas about association-list lookup -/

theorem string_append_left_cancel (s a b : String) (h : s ++ a = s ++ b) :
    a = b := by
  have hd : s.data ++ a.data = s.data ++ b.data := by
    have := congrArg String.data h
    simpa [String.data_append] using this
  have hab : a.data = b.data := List.append_cancel_left hd
  cases a; cases b; exact congrArg String.mk hab

theorem objGet_mapKeysChild (E : List (String × String)) (k : String) :
    objGet (mapKeysChild E) ("SIMCTL_CHILD_" ++ k) = objGet E k := by
  induction E with
  | nil => rfl
  | cons p t ih =>
    show objGet (("SIMCTL_CHILD_" ++ p.1, p.2) :: mapKeysChild t) _ = objGet (p :: t) k
    by_cases h : p.1 = k
    · unfold objGet
      rw [List.find?_cons_of_pos _ (by simp [h]), List.find?_cons_of_pos _ (by simp [h])]
      rfl
    · have h2 : ¬("SIMCTL_CHILD_" ++ p.1 = "SIMCTL_CHILD_" ++ k) := fun hh =>
        h (string_append_left_cancel _ _ _ hh)
      unfold objGet
      rw [List.find?_cons_of_neg _ (by simp [h2]), List.find?_cons_of_neg _ (by simp [h])]
      exact ih

theorem objGet_append {α : Type} (a b : List (String × α)) (k : String) :
    objGet (a ++ b) k = (objGet a k).or (objGet b k) := by
  cases h : List.find? (fun p => p.1 = k) a <;>
    simp [objGet, List.find?_append, h]

theorem find?_filter_keep {α : Type} (l : List (String × α))
    (q : String × α → Bool) (k : String) (h : ∀ p, p.1 = k → q p = true) :
    (l.filter q).find? (fun p => p.1 = k) = l.find? (fun p => p.1 = k) := by
  induction l with
  | nil => rfl
  | cons p t ih =>
    by_cases hk : p.1 = k
    · have hq := h p hk
      simp [List.filter_cons, hq, List.find?_cons, hk]
    · cases hq : q p <;> simp [List.filter_cons, hq, List.find?_cons, hk, ih]

/-- **C5.** For every environment-override mapping `E`, the child environment
built for an invocation contains, for every key `k` of `E`, a variable named
`SIMCTL_CHILD_k` whose value is `E[k]`; and every pre-existing process
environment variable whose name is not one of the prefixed override keys is
present unchanged. -/
theorem simCommand_child_env (E penv : List (String × String)) :
    (∀ k v, objGet E k = some v →
        objGet (childEnv E penv) ("SIMCTL_CHILD_" ++ k) = some v)
    ∧ (∀ k2, (∀ p ∈ E, "SIMCTL_CHILD_" ++ p.1 ≠ k2) →
        objGet (childEnv E penv) k2 = objGet penv k2) := by
  constructor
  · intro k v hv
    have h1 : objGet (mapKeysChild E) ("SIMCTL_CHILD_" ++ k) = some v := by
      rw [objGet_mapKeysChild]; exact hv
    show objGet (mapKeysChild E ++ _) _ = some v
    rw [objGet_append, h1]; rfl
  · intro k2 hk2
    have h1 : List.find? (fun p => p.1 = k2) (mapKeysChild E) = none := by
      apply List.find?_eq_none.mpr
      intro p hp
      simp only [mapKeysChild, List.mem_map] at hp
      obtain ⟨q, hq, rfl⟩ := hp
      simpa using hk2 q hq
    have hany : (mapKeysChild E).any (fun q => q.1 = k2) = false := by
      rw [Bool.eq_false_iff]
      intro hc
      obtain ⟨p, hp, hpk⟩ := List.any_eq_true.mp hc
      rw [List.find?_eq_none] at h1
      exact h1 p hp hpk
    show objGet (mapKeysChild E ++ _) _ = _
    rw [objGet_append]
    have h2 : objGet (mapKeysChild E) k2 = none := by
      simp [objGet, h1]
    rw [h2, Option.none_or]
    show objGet (List.filter _ penv) k2 = objGet penv k2
    unfold objGet
    rw [find?_filter_keep]
    intro p hp
    have : ((mapKeysChild E).any (fun q => q.1 = p.1)) = false := by
      rw [hp]; exact hany
    simp [this]

/-- Witness for C5 at a concrete environment. -/
theorem simCommand_child_env_witness :
    objGet (childEnv [("FOO", "1")] [("PATH", "p"), ("SIMCTL_CHILD_FOO", "old")])
        "SIMCTL_CHILD_FOO" = some "1"
    ∧ objGet (childEnv [("FOO", "1")] [("PATH", "p"), ("SIMCTL_CHILD_FOO", "old")])
        "PATH" = some "p" := by
  constructor
  · exact (simCommand_child_env [("FOO", "1")]
      [("PATH", "p"), ("SIMCTL_CHILD_FOO", "old")]).1 "FOO" "1" (by decide)
  · rw [(simCommand_child_env [("FOO", "1")]
      [("PATH", "p"), ("SIMCTL_CHILD_FOO", "old")]).2 "PATH" (by decide)]
    decide

/-- **C9.** For every failing tool invocation through the Command Invoker:
with `logErrors = false` the underlying error propagates unchanged; with
`logErrors = true` and a truthy captured standard error, a classified error is
raised whose message contains the subcommand name and the trimmed standard
error; with `logErrors = true` and no standard-error text the underlying error
is raised as-is; and in every case a failing invocation propagates an error —
never a result. -/
theorem simCommand_error_policy (command : String) (e : ExecError) :
    (simCommandOutcome command false (.error e) = .error (.underlying e))
    ∧ (∀ s, e.stderr = some s → s ≠ "" →
        ∃ msg, simCommandOutcome command true (.error e) =
            .error (.toolInvocation msg)
          ∧ strContains msg command = true
          ∧ strContains msg (jsTrim s) = true)
    ∧ (e.stderr = none →
        simCommandOutcome command true (.error e) = .error (.underlying e))
    ∧ (e.stderr = some "" →
        simCommandOutcome command true (.error e) = .error (.underlying e))
    ∧ (∀ logErrors, ∃ err,
        simCommandOutcome command logErrors (.error e) = .error err) := by
  refine ⟨rfl, ?_, ?_, ?_, ?_⟩
  · intro s hs hne
    refine ⟨"simctl error running " ++ "\x27" ++ command ++ "\x27" ++ ": " ++ jsTrim s,
      ?_, ?_, ?_⟩
    · simp [simCommandOutcome, hs, hne]
    · have h := strContains_middle ("simctl error running " ++ "\x27") command
        ("\x27" ++ ": " ++ jsTrim s)
      have harr : "simctl error running " ++ "\x27" ++ command ++ ("\x27" ++ ": " ++ jsTrim s)
          = "simctl error running " ++ "\x27" ++ command ++ "\x27" ++ ": " ++ jsTrim s := by
        simp [String.append_assoc]
      rwa [harr] at h
    · exact strContains_right _ _
  · intro h
    simp [simCommandOutcome, h]
  · intro h
    simp [simCommandOutcome, h]
  · intro logErrors
    cases logErrors with
    | false => exact ⟨.underlying e, rfl⟩
    | true =>
      cases hs : e.stderr with
      | none => exact ⟨.underlying e, by simp [simCommandOutcome, hs]⟩
      | some s =>
        by_cases hne : s = ""
        · exact ⟨.underlying e, by simp [simCommandOutcome, hs, hne]⟩
        · exact ⟨.toolInvocation
            ("simctl error running " ++ "\x27" ++ command ++ "\x27" ++ ": " ++ jsTrim s),
            by simp [simCommandOutcome, hs, hne]⟩

/-- Witness for C9 at a concrete failing invocation. -/
theorem simCommand_error_policy_witness :
    ∃ msg, simCommandOutcome "list" true (.error ⟨some " boom ", "m"⟩) =
        .error (.toolInvocation msg)
      ∧ strContains msg "list" = true
      ∧ strContains msg (jsTrim " boom ") = true := by
  exact (simCommand_error_policy "list" ⟨some " boom ", "m"⟩).2.1 " boom " rfl
    (by decide)

/-! ## Retry accounting (C6) -/

theorem retryRun_go_all_fail {α : Type} (outcome : Nat → Except String α)
    (hfail : ∀ i, ∃ m, outcome i = .error m) :
    ∀ n i, (retryRun.go outcome n i).2 = i + n := by
  intro n
  induction n with
  | zero => intro i; rfl
  | succ m ihm =>
    intro i
    obtain ⟨msg, hm⟩ := hfail i
    cases m with
    | zero =>
      show (retryRun.go outcome 1 i).2 = i + 1
      unfold retryRun.go
      rw [hm]
    | succ m2 =>
      have h2 := ihm (i + 1)
      show (retryRun.go outcome (m2 + 1 + 1) i).2 = i + (m2 + 1 + 1)
      unfold retryRun.go
      rw [hm]
      show (retryRun.go outcome (m2 + 1) (i + 1)).2 = i + (m2 + 1 + 1)
      rw [h2]
      omega

/-- **C6.** For every `timeoutMillis` value `t`, `eraseDevice` retries the
erase invocation exactly `⌊t / 200⌋` total attempts (default `t = 1000`,
hence 5 attempts) with a 200 ms delay between attempts, and every individual
attempt invokes `erase` with an internal execution timeout of 10000 ms. -/
theorem eraseDevice_policy (udid : String) (t : Nat)
    (outcome : Nat → Except String ExecResult)
    (hfail : ∀ i, ∃ m, outcome i = .error m) :
    (eraseDevicePlan udid t).retries = t / 200
    ∧ (eraseDevicePlan udid t).delayMs = 200
    ∧ (eraseDevicePlan udid t).innerCommand = "erase"
    ∧ (eraseDevicePlan udid t).innerTimeoutMs = 10000
    ∧ (eraseDevicePlan udid t).innerArgs = [udid]
    ∧ (eraseDevicePlan udid 1000).retries = 5
    ∧ (eraseDeviceRun udid t outcome).2 = t / 200 := by
  refine ⟨rfl, rfl, rfl, rfl, rfl, rfl, ?_⟩
  have h := retryRun_go_all_fail outcome hfail (t / 200) 0
  simpa [eraseDeviceRun, retryRun, eraseDevicePlan, eraseRetries] using h

/-- Witness for C6: always-failing erase attempts with the default 1000 ms
budget make exactly 5 attempts. -/
theorem eraseDevice_policy_witness :
    (eraseDeviceRun "D-1" 1000 (fun _ => .error "flaky")).2 = 5 := by
  have h := (eraseDevice_policy "D-1" 1000 (fun _ => .error "flaky")
    (fun _ => ⟨"flaky", rfl⟩)).2.2.2.2.2.2
  simpa using h

/-- **C3 (code bug).** The runtime-identifier lookup is supposed to scan the
runtimes and return the identifier of a runtime whose name matches the target
platform string (or an undefined value when none matches); the source's loop
body references the undeclared identifier `item`, so with any non-empty
runtime listing it throws a `ReferenceError` instead — here evaluated at a
listing that contains an exactly-matching runtime, alongside the
spec-modelled intended lookup. -/
theorem getRuntimeID_reference_error :
    getRuntimeID "iOS 10.2"
        [⟨"iOS 10.2", "com.apple.CoreSimulator.SimRuntime.iOS-10-2"⟩]
      = .error "ReferenceError: item is not defined"
    ∧ getRuntimeIDSpec "iOS 10.2"
        [⟨"iOS 10.2", "com.apple.CoreSimulator.SimRuntime.iOS-10-2"⟩]
      = some "com.apple.CoreSimulator.SimRuntime.iOS-10-2"
    ∧ getRuntimeID "anything" [] = .ok none := by
  refine ⟨rfl, ?_, rfl⟩
  decide

/-! ## Delimited-format parser (C7, C8, C10) -/

theorem toList_append (a b : String) : (a ++ b).toList = a.toList ++ b.toList := by
  show (a ++ b).data = a.data ++ b.data
  exact String.data_append a b

theorem mk_toList (s : String) : String.mk s.toList = s := by
  cases s; rfl

theorem fiveJoin_toList (s0 s1 s2 s3 s4 : String) :
    (s0 ++ "|" ++ s1 ++ "|" ++ s2 ++ "|" ++ s3 ++ "|" ++ s4).toList
      = s0.toList ++ '|' :: (s1.toList ++ '|' ::
          (s2.toList ++ '|' :: (s3.toList ++ '|' :: s4.toList))) := by
  simp [toList_append]

theorem lineSegments_five (s0 s1 s2 s3 s4 : String)
    (h0 : '|' ∉ s0.toList) (h1 : '|' ∉ s1.toList) (h2 : '|' ∉ s2.toList)
    (h3 : '|' ∉ s3.toList) (h4 : '|' ∉ s4.toList) :
    lineSegments (s0 ++ "|" ++ s1 ++ "|" ++ s2 ++ "|" ++ s3 ++ "|" ++ s4)
      = [jsTrim s0, jsTrim s1, jsTrim s2, jsTrim s3, jsTrim s4] := by
  have hdata := fiveJoin_toList s0 s1 s2 s3 s4
  unfold lineSegments splitStr
  rw [hdata, splitCh_append_sep _ _ _ h0, splitCh_append_sep _ _ _ h1,
    splitCh_append_sep _ _ _ h2, splitCh_append_sep _ _ _ h3,
    splitCh_no_sep _ _ h4]
  simp [jsTrim, mk_toList]

/-- **C7.** A line of the delimited format splits on `|` with each segment
trimmed of surrounding whitespace; the record's `udid`, `name` and `state`
come from fields 0, 1, 2, and the record is filed under the SDK key read from
field 4 (field 3 is ignored). -/
theorem getDevices_line_parse (s0 s1 s2 s3 s4 : String)
    (h0 : '|' ∉ s0.toList) (h1 : '|' ∉ s1.toList) (h2 : '|' ∉ s2.toList)
    (h3 : '|' ∉ s3.toList) (h4 : '|' ∉ s4.toList) :
    parseDelimitedLine (s0 ++ "|" ++ s1 ++ "|" ++ s2 ++ "|" ++ s3 ++ "|" ++ s4)
      = (⟨some (jsTrim s0), some (jsTrim s1), some (jsTrim s2)⟩, jsTrim s4)
    ∧ ((∀ i, i ∈ [s0, s1, s2, s3, s4] → '\n' ∉ i.toList) →
        buildInventoryD (s0 ++ "|" ++ s1 ++ "|" ++ s2 ++ "|" ++ s3 ++ "|" ++ s4)
          = [(jsTrim s4, [⟨some (jsTrim s0), some (jsTrim s1), some (jsTrim s2)⟩])]) := by
  have hseg := lineSegments_five s0 s1 s2 s3 s4 h0 h1 h2 h3 h4
  have hparse : parseDelimitedLine (s0 ++ "|" ++ s1 ++ "|" ++ s2 ++ "|" ++ s3 ++ "|" ++ s4)
      = (⟨some (jsTrim s0), some (jsTrim s1), some (jsTrim s2)⟩, jsTrim s4) := by
    unfold parseDelimitedLine
    rw [hseg]
    rfl
  refine ⟨hparse, ?_⟩
  intro hnl
  have hnltot : '\n' ∉ (s0 ++ "|" ++ s1 ++ "|" ++ s2 ++ "|" ++ s3 ++ "|" ++ s4).toList := by
    rw [fiveJoin_toList]
    intro hmem
    simp only [List.mem_append, List.mem_cons] at hmem
    rcases hmem with hx | hx | hx | hx | hx | hx | hx | hx | hx
    · exact hnl s0 (by simp) hx
    · exact absurd hx (by decide)
    · exact hnl s1 (by simp) hx
    · exact absurd hx (by decide)
    · exact hnl s2 (by simp) hx
    · exact absurd hx (by decide)
    · exact hnl s3 (by simp) hx
    · exact absurd hx (by decide)
    · exact hnl s4 (by simp) hx
  have hsplit : splitStr '\n' (s0 ++ "|" ++ s1 ++ "|" ++ s2 ++ "|" ++ s3 ++ "|" ++ s4)
      = [s0 ++ "|" ++ s1 ++ "|" ++ s2 ++ "|" ++ s3 ++ "|" ++ s4] := by
    unfold splitStr
    rw [splitCh_no_sep _ _ hnltot]
    show [String.mk (s0 ++ "|" ++ s1 ++ "|" ++ s2 ++ "|" ++ s3 ++ "|" ++ s4).toList] = _
    rw [mk_toList]
  unfold buildInventoryD
  rw [hsplit]
  simp only [List.foldl_cons, List.foldl_nil]
  unfold insertDeviceD
  rw [hparse]
  simp [objGet, objPush]

/-- Witness for C7 at the claim's literal line. -/
theorem getDevices_line_parse_witness :
    parseDelimitedLine "A1B2|iPhone 11|Booted|x|iOS 14.4"
      = (⟨some "A1B2", some "iPhone 11", some "Booted"⟩, "iOS 14.4")
    ∧ buildInventoryD "A1B2|iPhone 11|Booted|x|iOS 14.4"
      = [("iOS 14.4", [⟨some "A1B2", some "iPhone 11", some "Booted"⟩])] := by
  have h := getDevices_line_parse "A1B2" "iPhone 11" "Booted" "x" "iOS 14.4"
    (by decide) (by decide) (by decide) (by decide) (by decide)
  have e1 : ("A1B2" ++ "|" ++ "iPhone 11" ++ "|" ++ "Booted" ++ "|" ++ "x"
      ++ "|" ++ "iOS 14.4" : String) = "A1B2|iPhone 11|Booted|x|iOS 14.4" := rfl
  rw [e1] at h
  refine ⟨?_, ?_⟩
  · rw [h.1]; decide
  · rw [h.2 (by decide)]; decide

/-- C8 counterexample: the empty string is a non-null filter string that is
not a key of the inventory parsed from empty input, yet `getDevices` does not
fail with the unknown-SDK error — the JS truthiness test `if (forSdk)` sends
the empty string down the no-filter path and the full mapping is returned. -/
theorem getDevices_empty_filter_cex :
    getDevices "" (some "")
      = .ok (.all [("undefined", [⟨some "", none, none⟩])])
    ∧ (∀ p ∈ buildInventoryD "", p.1 ≠ "") := by
  constructor
  · rfl
  · decide

/-- **C8 (amended).** For every input text and every non-EMPTY filter string
`s`: if `s` is not a key of the parsed inventory, `getDevices` fails with the
explicit unknown-SDK error; if `s` is a key, it returns exactly that key's
record list; with no filter it returns the full inventory.  (The empty
string, although non-null, is falsy in JS and takes the no-filter path.) -/
theorem getDevices_filter_amended (stdout s : String) (hs : s ≠ "") :
    (objGet (buildInventoryD stdout) s = none →
        getDevices stdout (some s)
          = .error ("Sdk " ++ "\x27" ++ s ++ "\x27"
              ++ " was not in list of simctl sdks"))
    ∧ (∀ l, objGet (buildInventoryD stdout) s = some l →
        getDevices stdout (some s) = .ok (.filtered l))
    ∧ getDevices stdout none = .ok (.all (buildInventoryD stdout)) := by
  have hsb : (!(s == "")) = true := by
    simp [hs]
  refine ⟨?_, ?_, rfl⟩
  · intro h
    simp [getDevices, hsb, h]
  · intro l h
    simp [getDevices, hsb, h]

/-- Witness for C8 at concrete inputs: an absent SDK errors, a present SDK
returns its list. -/
theorem getDevices_filter_amended_witness :
    getDevices "A1B2|iPhone 11|Booted|x|iOS 14.4" (some "nope")
      = .error ("Sdk " ++ "\x27" ++ "nope" ++ "\x27"
          ++ " was not in list of simctl sdks")
    ∧ getDevices "A1B2|iPhone 11|Booted|x|iOS 14.4" (some "iOS 14.4")
      = .ok (.filtered [⟨some "A1B2", some "iPhone 11", some "Booted"⟩]) := by
  constructor
  · exact (getDevices_filter_amended "A1B2|iPhone 11|Booted|x|iOS 14.4" "nope"
      (by decide)).1 (by decide)
  · exact (getDevices_filter_amended "A1B2|iPhone 11|Booted|x|iOS 14.4" "iOS 14.4"
      (by decide)).2.1 [⟨some "A1B2", some "iPhone 11", some "Booted"⟩] (by decide)

/-! ## Totality and per-line accounting of the delimited parser (C10) -/

theorem objPush_keys {α : Type} (d : List (String × List α)) (k : String) (r : α) :
    (objPush d k r).map Prod.fst = d.map Prod.fst := by
  unfold objPush
  induction d with
  | nil => rfl
  | cons p t ih =>
    simp only [List.map_cons, ih]
    congr 1
    by_cases h : p.1 = k <;> simp [h]

theorem recordCount_objPush (d : List (String × List DeviceEntryD)) (k : String)
    (r : DeviceEntryD) :
    recordCount (objPush d k r) = recordCount d + (d.map Prod.fst).count k := by
  induction d with
  | nil => rfl
  | cons p t ih =>
    simp only [objPush, List.map_cons] at ih ⊢
    by_cases h : p.1 = k
    · rw [if_pos h]
      simp only [recordCount, List.map_cons, List.sum_cons] at ih ⊢
      rw [ih]
      have hk : (p.1 == k) = true := by simp [h]
      simp [List.count_cons, hk, List.length_append]
      omega
    · rw [if_neg h]
      simp only [recordCount, List.map_cons, List.sum_cons] at ih ⊢
      rw [ih]
      have hk : (p.1 == k) = false := by simp [h]
      simp [List.count_cons, hk]
      omega

theorem objGet_none_iff {α : Type} (d : List (String × α)) (k : String) :
    objGet d k = none ↔ k ∉ d.map Prod.fst := by
  unfold objGet
  rw [Option.map_eq_none', List.find?_eq_none]
  simp only [List.mem_map, decide_eq_true_eq]
  constructor
  · rintro h ⟨p, hp, rfl⟩
    exact h p hp rfl
  · intro h p hp hk
    exact h ⟨p, hp, hk⟩

theorem insertDeviceD_invariant (d : List (String × List DeviceEntryD))
    (item : String) (h : (d.map Prod.fst).Nodup) :
    ((insertDeviceD d item).map Prod.fst).Nodup
    ∧ recordCount (insertDeviceD d item) = recordCount d + 1 := by
  simp only [insertDeviceD]
  cases hg : objGet d (parseDelimitedLine item).2 with
  | some v =>
    have hmem : (parseDelimitedLine item).2 ∈ d.map Prod.fst := by
      by_contra hq
      rw [← objGet_none_iff] at hq
      rw [hq] at hg
      cases hg
    constructor
    · rw [objPush_keys]; exact h
    · rw [recordCount_objPush, List.count_eq_one_of_mem h hmem]
  | none =>
    have hnm : (parseDelimitedLine item).2 ∉ d.map Prod.fst :=
      (objGet_none_iff _ _).mp hg
    have hkeys : ((d ++ [((parseDelimitedLine item).2, ([] : List DeviceEntryD))]).map
        Prod.fst) = d.map Prod.fst ++ [(parseDelimitedLine item).2] := by
      simp
    constructor
    · rw [objPush_keys, hkeys]
      exact List.Nodup.append h (List.nodup_singleton _)
        (List.disjoint_singleton.mpr hnm)
    · rw [recordCount_objPush, hkeys]
      have hrc : recordCount (d ++ [((parseDelimitedLine item).2, [])])
          = recordCount d := by
        simp [recordCount]
      rw [hrc, List.count_append]
      have h0 : (d.map Prod.fst).count (parseDelimitedLine item).2 = 0 :=
        List.count_eq_zero.mpr hnm
      simp [h0]

theorem buildInventory_fold_invariant (items : List String) :
    ∀ d, (d.map Prod.fst).Nodup →
      ((items.foldl insertDeviceD d).map Prod.fst).Nodup
      ∧ recordCount (items.foldl insertDeviceD d)
          = recordCount d + items.length := by
  induction items with
  | nil => intro d h; exact ⟨h, by simp⟩
  | cons it t ih =>
    intro d h
    have h1 := insertDeviceD_invariant d it h
    have h2 := ih (insertDeviceD d it) h1.1
    refine ⟨h2.1, ?_⟩
    simp only [List.foldl_cons, List.length_cons]
    rw [h2.2, h1.2]
    omega

/-- **C10.** With no SDK filter supplied, the delimited-format parser is total
over its input: it never fails, and every input line — including lines with
fewer than five fields and the empty line — produces exactly one record,
grouped under its 5th trimmed segment (the JS `undefined` key coerces to the
property name `"undefined"`), with missing fields left as `none`. -/
theorem getDevices_no_filter_total (stdout : String) :
    getDevices stdout none = .ok (.all (buildInventoryD stdout))
    ∧ recordCount (buildInventoryD stdout) = (splitStr '\n' stdout).length
    ∧ parseDelimitedLine "" = (⟨some "", none, none⟩, "undefined") := by
  refine ⟨rfl, ?_, by decide⟩
  have h := buildInventory_fold_invariant (splitStr '\n' stdout) [] (by simp)
  have h2 := h.2
  simpa [buildInventoryD, recordCount] using h2

/-! ## `createDevice` extraction and error classification (C4) -/

theorem dropWhile_append_nonempty (p : Char → Bool) (a b : List Char)
    (h : a.dropWhile p ≠ []) : (a ++ b).dropWhile p = a.dropWhile p ++ b := by
  induction a with
  | nil => simp at h
  | cons c t ih =>
    by_cases hc : p c
    · simp only [List.dropWhile_cons, hc, if_true] at h ⊢
      simpa [hc] using ih h
    · simp [List.dropWhile_cons, hc]

theorem trimChars_append_space (l : List Char) :
    trimChars (l ++ [' ']) = trimChars l := by
  unfold trimChars
  cases hd : l.dropWhile isJsSpace with
  | nil =>
    have hall := List.dropWhile_eq_nil_iff.mp hd
    have h2 : (l ++ [' ']).dropWhile isJsSpace = [] := by
      rw [List.dropWhile_eq_nil_iff]
      intro x hx
      rcases List.mem_append.mp hx with hm | hm
      · exact hall x hm
      · simp only [List.mem_singleton] at hm
        subst hm; rfl
    simp only [h2, hd]
  | cons c t =>
    have hne : l.dropWhile isJsSpace ≠ [] := by rw [hd]; simp
    rw [dropWhile_append_nonempty _ _ _ hne, hd, List.reverse_append]
    rw [show ([' '] : List Char).reverse ++ (c :: t).reverse
        = ' ' :: (c :: t).reverse from rfl]
    rw [List.dropWhile_cons]
    norm_num [isJsSpace]

theorem jsTrim_append_space (u : String) (hu : jsTrim u = u) :
    jsTrim (u ++ " ") = u := by
  have hdata : (u ++ " ").toList = u.toList ++ [' '] := by
    rw [toList_append]; rfl
  unfold jsTrim
  rw [hdata, trimChars_append_space]
  exact hu

/-- **C4.** When the create invocation's stdout is the line
`Create Ended: <udid> | <rest>`, the extracted identifier is exactly the udid
(first `|`-field after stripping the prefix, trimmed).  On every tool
failure — whatever `stderr` the executor captured — the error reaching
`createDevice`'s catch has passed through `simCommand` and so carries no
truthy `stderr`; the thrown creation error is therefore always
`Error creating device type: <deviceTypeId> - Exception: `, whose message
includes the device-type identifier. -/
theorem createDevice_claim (u rest : String)
    (hu : jsTrim u = u) (hup : '|' ∉ u.toList) (hun : '\n' ∉ u.toList)
    (hrn : '\n' ∉ rest.toList) (hrne : rest.toList ≠ [])
    (hrl : isJsSpace (rest.toList.getLastD ' ') = false) :
    extractUdid ("Create Ended: " ++ u ++ " | " ++ rest) = u
    ∧ (∀ dt (e : ExecError),
        createDevice dt (.error e)
          = .error ("Error creating device type: " ++ dt ++ " - Exception: ")
        ∧ strContains ("Error creating device type: " ++ dt ++ " - Exception: ")
            dt = true) := by
  have hL : ("Create Ended: " ++ u ++ " | " ++ rest).toList
      = "Create Ended: ".toList ++ (u.toList ++ (' ' :: '|' :: ' ' :: rest.toList)) := by
    simp [toList_append, List.append_assoc]
  have hnl2 : '\n' ∉ "Create Ended: ".toList
      ++ (u.toList ++ (' ' :: '|' :: ' ' :: rest.toList)) := by
    intro hmem
    simp only [List.mem_append, List.mem_cons] at hmem
    rcases hmem with hx | hx | hx | hx | hx | hx
    · revert hx; decide
    · exact hun hx
    · exact absurd hx (by decide)
    · exact absurd hx (by decide)
    · exact absurd hx (by decide)
    · exact hrn hx
  have htrim : jsTrim ("Create Ended: " ++ u ++ " | " ++ rest)
      = "Create Ended: " ++ u ++ " | " ++ rest := by
    have heq : trimChars ("Create Ended: " ++ u ++ " | " ++ rest).toList
        = ("Create Ended: " ++ u ++ " | " ++ rest).toList := by
      apply trimChars_eq_self
      · rw [hL]
        intro hc
        exact absurd (List.append_eq_nil.mp hc).1 (by decide)
      · rw [hL]
        rfl
      · rw [hL]
        rw [show "Create Ended: ".toList ++ (u.toList ++ (' ' :: '|' :: ' ' :: rest.toList))
            = ("Create Ended: ".toList ++ u.toList ++ [' ', '|', ' ']) ++ rest.toList by
          simp [List.append_assoc]]
        rw [List.getLastD_eq_getLast?,
          List.getLast?_append_of_ne_nil _ hrne,
          ← List.getLastD_eq_getLast?]
        exact hrl
    unfold jsTrim
    rw [heq, mk_toList]
  refine ⟨?_, ?_⟩
  · unfold extractUdid
    simp only [htrim, hL]
    rw [splitCh_no_sep _ _ hnl2]
    rw [show ([("Create Ended: ".toList ++ (u.toList ++ (' ' :: '|' :: ' ' :: rest.toList)))].getLastD
        ([] : List Char))
        = "Create Ended: ".toList ++ (u.toList ++ (' ' :: '|' :: ' ' :: rest.toList)) from rfl]
    rw [removeFirst_head_match _ _ (by decide)]
    rw [show (u.toList ++ (' ' :: '|' :: ' ' :: rest.toList))
        = (u.toList ++ [' ']) ++ '|' :: (' ' :: rest.toList) by
      simp [List.append_assoc]]
    rw [splitCh_append_sep _ _ _ (by
      intro hc
      rcases List.mem_append.mp hc with hx | hx
      · exact hup hx
      · exact absurd hx (by decide))]
    rw [show (((u.toList ++ [' ']) :: splitCh '|' (' ' :: rest.toList)).headD
        ([] : List Char))
        = u.toList ++ [' '] from rfl]
    have hmkspace : String.mk (u.toList ++ [' ']) = u ++ " " := by
      have h5 : (u ++ " ").toList = u.toList ++ [' '] := by rw [toList_append]; rfl
      rw [← h5, mk_toList]
    rw [hmkspace]
    exact jsTrim_append_space u hu
  · intro dt e
    constructor
    · unfold createDevice
      cases hs : e.stderr with
      | none =>
        simp [simCommandOutcome, hs, createDeviceErrorMsg, simCmdErrorStderr]
      | some s =>
        by_cases hse : s = ""
        · subst hse
          simp [simCommandOutcome, hs, createDeviceErrorMsg, simCmdErrorStderr]
        · simp [simCommandOutcome, hs, hse, createDeviceErrorMsg,
            simCmdErrorStderr]
    · exact strContains_middle ("Error creating device type: ") dt
        (" - Exception: ")

/-- Witness for C4 at the claim's literal output line and a concrete
stderr-carrying failure (which still yields the device-type-bearing
message, the stderr having been consumed by the invoker's classification). -/
theorem createDevice_claim_witness :
    extractUdid "Create Ended: 1234-ABCD | iPhone 8, iOS 13.0" = "1234-ABCD"
    ∧ createDevice "DT-X" (.error ⟨some "Invalid runtime", "err"⟩)
      = .error ("Error creating device type: " ++ "DT-X" ++ " - Exception: ") := by
  have h := createDevice_claim "1234-ABCD" "iPhone 8, iOS 13.0"
    (by decide) (by decide) (by decide) (by decide) (by decide) (by decide)
  constructor
  · have e1 : ("Create Ended: " ++ "1234-ABCD" ++ " | " ++ "iPhone 8, iOS 13.0" : String)
        = "Create Ended: 1234-ABCD | iPhone 8, iOS 13.0" := rfl
    have h1 := h.1
    rwa [e1] at h1
  · exact (h.2 "DT-X" ⟨some "Invalid runtime", "err"⟩).1

/-! ## `getScreenshot` temp-file lifecycle (C2) -/

theorem simCommandOutcome_error_isError (c : String) (lE : Bool) (e : ExecError) :
    ∃ err, simCommandOutcome c lE (.error e) = .error err := by
  cases lE with
  | false => exact ⟨.underlying e, rfl⟩
  | true =>
    cases hs : e.stderr with
    | none => exact ⟨.underlying e, by simp [simCommandOutcome, hs]⟩
    | some s =>
      by_cases hne : s = ""
      · exact ⟨.underlying e, by simp [simCommandOutcome, hs, hne]⟩
      · exact ⟨.toolInvocation
          ("simctl error running " ++ "\x27" ++ c ++ "\x27" ++ ": " ++ jsTrim s),
          by simp [simCommandOutcome, hs, hne]⟩

/-- C2 counterexample: the `io` invocation succeeds, the file read fails, the
call completes (with the propagated error) and the temporary path was never
deleted — no path was passed to `rimraf`. -/
theorem getScreenshot_cleanup_cex :
    getScreenshot "/tmp/screenshot-UD.png" (.ok ⟨"", ""⟩) (.error "ENOENT")
      = (.error "ENOENT", [])
    ∧ "/tmp/screenshot-UD.png"
        ∉ (getScreenshot "/tmp/screenshot-UD.png" (.ok ⟨"", ""⟩) (.error "ENOENT")).2 := by
  constructor
  · rfl
  · decide

/-- **C2 (amended).** The temporary screenshot path is deleted exactly on the
success path: it is passed to `rimraf` if and only if both the tool
invocation and the file read succeed; on either failure the error propagates
and the temporary file is not removed. -/
theorem getScreenshot_cleanup_amended (path : String)
    (er : Except ExecError ExecResult) (rr : Except String (List Nat)) :
    ((getScreenshot path er rr).2 = [path] ↔
        (∃ r, er = .ok r) ∧ (∃ b, rr = .ok b))
    ∧ (∀ r b, er = .ok r → rr = .ok b →
        getScreenshot path er rr = (.ok (String.mk (base64Encode b)), [path]))
    ∧ (∀ e, er = .error e → (getScreenshot path er rr).2 = [])
    ∧ (∀ m, rr = .error m → (getScreenshot path er rr).2 = []) := by
  have hsplit : ∀ e : ExecError, (getScreenshot path (.error e) rr).2 = [] := by
    intro e
    obtain ⟨err, herr⟩ := simCommandOutcome_error_isError "io" true e
    simp [getScreenshot, herr]
  refine ⟨?_, ?_, ?_, ?_⟩
  · constructor
    · intro h
      cases er with
      | error e =>
        rw [hsplit e] at h
        simp at h
      | ok r =>
        cases rr with
        | error m => simp [getScreenshot, simCommandOutcome] at h
        | ok b => exact ⟨⟨r, rfl⟩, ⟨b, rfl⟩⟩
    · rintro ⟨⟨r, rfl⟩, ⟨b, rfl⟩⟩
      rfl
  · rintro r b rfl rfl
    rfl
  · intro e he
    subst he
    exact hsplit e
  · intro m hm
    cases er with
    | error e => exact hsplit e
    | ok r =>
      subst hm
      rfl

/-- Witness for C2 (amended): on the all-success path the PNG bytes are
base64-encoded and the temporary path is deleted. -/
theorem getScreenshot_cleanup_amended_witness :
    getScreenshot "/tmp/s.png" (.ok ⟨"", ""⟩) (.ok [77, 97, 110])
      = (.ok "TWFu", ["/tmp/s.png"]) := by
  have h := (getScreenshot_cleanup_amended "/tmp/s.png" (.ok ⟨"", ""⟩)
    (.ok [77, 97, 110])).2.1 ⟨"", ""⟩ [77, 97, 110] rfl rfl
  rw [h]
  rfl

/-! ## Section-format parser: `getDevicesByParsing` (lines 116–172)

The source drives two regular expressions:

* `deviceSectionRe`, pattern `-- iOS (.+) --(\n\s{4}.+)*` with flags `mg` —
  executed repeatedly (lines 131–137) to collect all section matches;
* `lineRe`, pattern `([^\s].+) \((\w+-.+\w+)\) \((\w+\s?\w+)\)` — executed
  once per section body line (lines 155–158).

Both are embedded below with JS backtracking semantics: a match is searched
left-to-right by start position; every greedy quantifier tries its longest
extent first and backtracks; `\s`, `\w` and `.` are `isJsSpace`,
`isWordChar` and `isDotChar`.  In `deviceSectionRe`, the star is final, so an
overall match exists for any position of the `--` literal and greedy
backtracking of `(.+)` lands on the rightmost ` --` occurrence; each star
iteration consumes `\n`, four whitespace characters and a maximal nonempty
run of dot-characters, and no global backtracking into earlier iterations
can extend the match. -/

/-- A record of the section-format parser (lines 162–167). -/
structure DeviceRecord where
  name : String
  udid : String
  state : String
  sdk : String
deriving DecidableEq, Repr

def headerLit : List Char := "-- iOS ".toList

/-- Greedy split for `(.+) --⋯`: the largest `x` with `l = x ++ " --" ++ y`
(the backtracking `.+` prefers the rightmost literal occurrence, and the
remainder of the pattern — a star — always matches). -/
def splitAnywhere : List Char → Option (List Char × List Char)
  | [] => none
  | c :: t =>
    match splitAnywhere t with
    | some p => some (c :: p.1, p.2)
    | none =>
      if " --".toList.isPrefixOf (c :: t) then some ([], (c :: t).drop 3)
      else none

/-- `(.+) --`: the capture is nonempty, so the occurrence starts at ≥ 1. -/
def splitLastDashes : List Char → Option (List Char × List Char)
  | [] => none
  | c :: t => (splitAnywhere t).map (fun p => (c :: p.1, p.2))

/-- `(\n\s{4}.+)*`, all greedy, nothing following: (consumed, rest).  The
fuel argument only bounds the recursion (each iteration consumes at least
six characters, so any fuel of at least the input length is sufficient and
the zero-fuel fallback is unreachable from the wrapper below). -/
def starLoopF : Nat → List Char → List Char × List Char
  | 0, cs => ([], cs)
  | fuel + 1, cs =>
    match cs with
    | '\n' :: c1 :: c2 :: c3 :: c4 :: rest =>
      if isJsSpace c1 && isJsSpace c2 && isJsSpace c3 && isJsSpace c4 then
        let run := rest.takeWhile isDotChar
        if run.isEmpty then ([], cs)
        else
          let scr := starLoopF fuel (rest.drop run.length)
          ('\n' :: c1 :: c2 :: c3 :: c4 :: (run ++ scr.1), scr.2)
      else ([], cs)
    | _ => ([], cs)

/-- The continuation star of `deviceSectionRe`. -/
def starLoop (cs : List Char) : List Char × List Char :=
  starLoopF cs.length cs

/-- One match attempt of `deviceSectionRe`: `match[0]`, `match[1]`. -/
structure SecMatch where
  full : List Char
  capture : List Char
deriving DecidableEq, Repr

/-- The section pattern tried at the start of `cs`: the header literal, the
greedy nonempty capture up to the rightmost ` --`, then the continuation
star.  Returns the match and the rest of the input after it. -/
def tryMatchAt (cs : List Char) : Option (SecMatch × List Char) :=
  if headerLit.isPrefixOf cs then
    let afterLit := cs.drop 7
    let dotRun := afterLit.takeWhile isDotChar
    match splitLastDashes dotRun with
    | none => none
    | some xy =>
      let afterHeader := afterLit.drop (xy.1.length + 3)
      let scr := starLoop afterHeader
      some (⟨headerLit ++ xy.1 ++ " --".toList ++ scr.1, xy.1⟩, scr.2)
  else none

/-- One-step unfolding of `starLoopF` at positive fuel (definitional). -/
theorem starLoopF_succ (fuel : Nat) (cs : List Char) :
    starLoopF (fuel + 1) cs = (match cs with
      | '\n' :: c1 :: c2 :: c3 :: c4 :: rest =>
        if isJsSpace c1 && isJsSpace c2 && isJsSpace c3 && isJsSpace c4 then
          let run := rest.takeWhile isDotChar
          if run.isEmpty then ([], cs)
          else
            let scr := starLoopF fuel (rest.drop run.length)
            ('\n' :: c1 :: c2 :: c3 :: c4 :: (run ++ scr.1), scr.2)
        else ([], cs)
      | _ => ([], cs)) := rfl

theorem starLoopF_rest_le :
    ∀ (fuel : Nat) (cs : List Char), (starLoopF fuel cs).2.length ≤ cs.length := by
  intro fuel
  induction fuel with
  | zero => intro cs; simp [starLoopF]
  | succ n ih =>
    intro cs
    rw [starLoopF_succ]
    split
    · rename_i c1 c2 c3 c4 rest
      split
      · dsimp only
        split
        · simp
        · have h1 := ih (rest.drop (rest.takeWhile isDotChar).length)
          simp only [List.length_cons]
          calc (starLoopF n (rest.drop (rest.takeWhile isDotChar).length)).2.length
              ≤ (rest.drop (rest.takeWhile isDotChar).length).length := h1
            _ ≤ rest.length := by simp [List.length_drop]
            _ ≤ rest.length + 1 + 1 + 1 + 1 + 1 := by omega
      · simp
    · simp

theorem starLoop_rest_le (cs : List Char) : (starLoop cs).2.length ≤ cs.length :=
  starLoopF_rest_le cs.length cs

/-- The fuel of `starLoopF` is irrelevant once it covers the input length. -/
theorem starLoopF_irrel :
    ∀ (f1 f2 : Nat) (cs : List Char), cs.length ≤ f1 → cs.length ≤ f2 →
      starLoopF f1 cs = starLoopF f2 cs := by
  intro f1
  induction f1 with
  | zero =>
    intro f2 cs h1 h2
    have h0 : cs = [] := List.length_eq_zero.mp (Nat.le_zero.mp h1)
    subst h0
    cases f2 <;> rfl
  | succ a ih =>
    intro f2 cs h1 h2
    cases f2 with
    | zero =>
      have h0 : cs = [] := List.length_eq_zero.mp (Nat.le_zero.mp h2)
      subst h0
      rfl
    | succ b =>
      rw [starLoopF_succ, starLoopF_succ]
      split
      · rename_i c1 c2 c3 c4 rest
        split
        · dsimp only
          split
          · rfl
          · have hrl : rest.length + 5 ≤ a + 1 := by
              simpa [List.length_cons] using h1
            have hrl2 : rest.length + 5 ≤ b + 1 := by
              simpa [List.length_cons] using h2
            have hdl : (rest.drop (rest.takeWhile isDotChar).length).length ≤ rest.length := by
              simp [List.length_drop]
            rw [ih b (rest.drop (rest.takeWhile isDotChar).length)
              (by omega) (by omega)]
        · rfl
      · rfl

theorem tryMatchAt_rest_lt (cs : List Char) (m : SecMatch) (r : List Char)
    (h : tryMatchAt cs = some (m, r)) : r.length < cs.length := by
  unfold tryMatchAt at h
  by_cases hp : headerLit.isPrefixOf cs
  · rw [if_pos hp] at h
    dsimp only at h
    have h7 : 7 ≤ cs.length := by
      have := List.IsPrefix.length_le (List.isPrefixOf_iff_prefix.mp hp)
      simpa [headerLit] using this
    cases hsld : splitLastDashes ((cs.drop 7).takeWhile isDotChar) with
    | none => rw [hsld] at h; cases h
    | some xy =>
      rw [hsld] at h
      dsimp only at h
      have hr : r = (starLoop ((cs.drop 7).drop (xy.1.length + 3))).2 := by
        cases h; rfl
      have hle := starLoop_rest_le ((cs.drop 7).drop (xy.1.length + 3))
      rw [hr]
      calc (starLoop ((cs.drop 7).drop (xy.1.length + 3))).2.length
          ≤ ((cs.drop 7).drop (xy.1.length + 3)).length := hle
        _ ≤ (cs.drop 7).length := by
          simp only [List.length_drop]
          omega
        _ < cs.length := by
          simp only [List.length_drop]
          omega
  · rw [if_neg hp] at h
    cases h

/-- `deviceSectionRe.exec` from the current position: the engine searches
start positions left to right; a feasible start where the full pattern
nevertheless fails resumes the scan one position further (the loop on lines
131–137 collects consecutive matches through `lastIndex`). -/
def execFrom : List Char → Option (SecMatch × List Char)
  | [] => none
  | c :: t =>
    match tryMatchAt (c :: t) with
    | some mr => some mr
    | none => execFrom t

theorem execFrom_rest_lt :
    ∀ (cs : List Char) (m : SecMatch) (r : List Char),
      execFrom cs = some (m, r) → r.length < cs.length := by
  intro cs
  induction cs with
  | nil => intro m r h; cases h
  | cons c t ih =>
    intro m r h
    unfold execFrom at h
    cases ht : tryMatchAt (c :: t) with
    | some mr =>
      rw [ht] at h
      cases h
      exact tryMatchAt_rest_lt (c :: t) m r ht
    | none =>
      rw [ht] at h
      have := ih m r h
      simp only [List.length_cons]
      omega

/-- The `while (match !== null)` loop (lines 131–137), fueled: each match
consumes at least one character, so fuel exceeding the input length is
sufficient and the zero-fuel fallback is unreachable from the wrapper. -/
def execAllF : Nat → List Char → List SecMatch
  | 0, _ => []
  | fuel + 1, cs =>
    match execFrom cs with
    | none => []
    | some mr => mr.1 :: execAllF fuel mr.2

/-- All matches of `deviceSectionRe`, in order. -/
def execAll (cs : List Char) : List SecMatch :=
  execAllF (cs.length + 1) cs

theorem execAllF_irrel :
    ∀ (f1 f2 : Nat) (cs : List Char), cs.length < f1 → cs.length < f2 →
      execAllF f1 cs = execAllF f2 cs := by
  intro f1
  induction f1 with
  | zero =>
    intro f2 cs h1 _
    exact absurd h1 (Nat.not_lt_zero _)
  | succ a ih =>
    intro f2 cs h1 h2
    cases f2 with
    | zero => exact absurd h2 (Nat.not_lt_zero _)
    | succ b =>
      simp only [execAllF]
      cases he : execFrom cs with
      | none => rfl
      | some mr =>
        have hlt : mr.2.length < cs.length :=
          execFrom_rest_lt cs mr.1 mr.2 (by rw [he])
        have ha : mr.2.length < a := by omega
        have hb : mr.2.length < b := by omega
        dsimp only
        congr 1
        exact ih b mr.2 ha hb

/-- The defining unfolding of `execAll`. -/
theorem execAll_eq (cs : List Char) :
    execAll cs = (match execFrom cs with
      | none => []
      | some mr => mr.1 :: execAll mr.2) := by
  unfold execAll
  simp only [execAllF]
  cases he : execFrom cs with
  | none => rfl
  | some mr =>
    have hlt : mr.2.length < cs.length :=
      execFrom_rest_lt cs mr.1 mr.2 (by rw [he])
    have ha : mr.2.length < cs.length := hlt
    dsimp only
    congr 1
    exact execAllF_irrel cs.length (mr.2.length + 1) mr.2 (by omega) (by omega)

/-! ### The per-line pattern `([^\s].+) \((\w+-.+\w+)\) \((\w+\s?\w+)\)` -/

/-- Length of the maximal `\w` run at the front. -/
def wordRunLen (cs : List Char) : Nat :=
  (cs.takeWhile isWordChar).length

/-- `[n, n-1, …, 1]`: the candidate extents of a greedy quantifier, longest
first (a `+` quantifier never tries the empty extent). -/
def descRange : Nat → List Nat
  | 0 => []
  | n + 1 => (n + 1) :: descRange n

/-- First candidate accepted by the continuation, in preference order. -/
def firstSome {α β : Type} (xs : List α) (f : α → Option β) : Option β :=
  match xs with
  | [] => none
  | x :: t =>
    match f x with
    | some b => some b
    | none => firstSome t f

/-- Continue after the literal `)` (any remainder). -/
def litParen {γ : Type} (l : List Char) (F : List Char → Option γ) : Option γ :=
  match l with
  | ')' :: r => F r
  | _ => none

/-- Continue after the literal `-`. -/
def litDash {γ : Type} (l : List Char) (F : List Char → Option γ) : Option γ :=
  match l with
  | '-' :: r => F r
  | _ => none

/-- Continue after the literal ` (`. -/
def litSpParen {γ : Type} (l : List Char) (F : List Char → Option γ) : Option γ :=
  match l with
  | ' ' :: '(' :: r => F r
  | _ => none

/-- Continue after the literal `) (`. -/
def litParenSpParen {γ : Type} (l : List Char) (F : List Char → Option γ) :
    Option γ :=
  match l with
  | ')' :: ' ' :: '(' :: r => F r
  | _ => none

/-- `(\w+\s?\w+)\)` at `cs` (the pattern ends after the literal `)`, so the
tail of the line is unconstrained); returns the capture. -/
def matchG3 (cs : List Char) : Option (List Char) :=
  firstSome (descRange (wordRunLen cs)) (fun a =>
    let w1 := cs.take a
    let r1 := cs.drop a
    let spCands : List (List Char × List Char) :=
      match r1 with
      | c :: t => if isJsSpace c then [([c], t), ([], r1)] else [([], r1)]
      | [] => [([], r1)]
    firstSome spCands (fun sp =>
      firstSome (descRange (wordRunLen sp.2)) (fun b =>
        litParen (sp.2.drop b) (fun _ => some (w1 ++ sp.1 ++ sp.2.take b)))))

/-- `(\w+-.+\w+)\) \(` followed by group 3, at `cs`; returns both captures. -/
def matchG2 (cs : List Char) : Option (List Char × List Char) :=
  firstSome (descRange (wordRunLen cs)) (fun a =>
    litDash (cs.drop a) (fun r1 =>
      firstSome (descRange ((r1.takeWhile isDotChar).length)) (fun x =>
        let r2 := r1.drop x
        firstSome (descRange (wordRunLen r2)) (fun y =>
          litParenSpParen (r2.drop y) (fun r3 =>
            (matchG3 r3).map (fun g3 =>
              (cs.take a ++ '-' :: (r1.take x ++ r2.take y), g3)))))))

/-- The full line pattern anchored at the start of `cs`. -/
def matchAt (cs : List Char) : Option (List Char × List Char × List Char) :=
  match cs with
  | [] => none
  | c :: t =>
    if isJsSpace c then none
    else
      firstSome (descRange ((t.takeWhile isDotChar).length)) (fun x =>
        litSpParen (t.drop x) (fun r1 =>
          (matchG2 r1).map (fun g => (c :: t.take x, g.1, g.2))))

/-- `lineRe.exec(line)`: leftmost successful start position. -/
def lineExec : List Char → Option (List Char × List Char × List Char)
  | [] => none
  | c :: t =>
    match matchAt (c :: t) with
    | some r => some r
    | none => lineExec t

/-- Lines 116–172: `getDevicesByParsing` as a function of the `list devices`
invocation's stdout.  All section matches are collected; zero matches raise
the parse error; then for each match, `devices[sdk] = []` (resetting the key
if it already existed) and every line of `match[0].split('\n').slice(1)` must
match `lineRe` (else a hard error naming the line) and is pushed. -/
def pushLine (sdk : String) (devs : List (String × List DeviceRecord))
    (line : List Char) : Except String (List (String × List DeviceRecord)) :=
  match lineExec line with
  | none => .error ("Could not match line: " ++ String.mk line)
  | some r =>
    .ok (objPush devs sdk ⟨String.mk r.1, String.mk r.2.1, String.mk r.2.2, sdk⟩)

/-- Lines 144–168: one iteration of `for (match of matches)`: reset
`devices[sdk] = []`, then parse and push every line of
`match[0].split('\n').slice(1)`. -/
def processMatch (devices : List (String × List DeviceRecord)) (m : SecMatch) :
    Except String (List (String × List DeviceRecord)) :=
  let sdk := String.mk m.capture
  ((splitCh '\n' m.full).drop 1).foldlM (pushLine sdk) (objSet devices sdk [])

def getDevicesByParsing (stdout : String) :
    Except String (List (String × List DeviceRecord)) :=
  let secMatches := execAll stdout.toList
  if secMatches.length < 1 then .error "Could not find device section"
  else secMatches.foldlM processMatch []

/-- C1 counterexample.  Two failures of the claim as stated: (a) a text with
one section header of the shape `-- <sdk-version> --` (namely `-- tvOS 9.0
--`) followed by one well-formed device line makes the parser fail — the
regex only matches `-- iOS <version> --` headers, so N = 1 sections yield 0
keys; (b) a text with N = 2 sections whose version captures coincide yields
an inventory with a single key holding only the second section's single
record — `devices[sdk] = []` resets the key, so the first section's record is
lost, contradicting "exactly N keys, the i-th key's list has exactly Mi
records". -/
theorem getDevicesByParsing_cex :
    getDevicesByParsing "-- tvOS 9.0 --\n    A4 (B-CD) (On)"
      = .error "Could not find device section"
    ∧ getDevicesByParsing
        "-- iOS 8.1 --\n    A4 (B-CD) (On)\n-- iOS 8.1 --\n    A5 (E-FG) (On)"
      = .ok [("8.1", [⟨"A5", "E-FG", "On", "8.1"⟩])] := by
  constructor
  · rfl
  · rfl

/-! ### Rendered well-formed section listings (for the amended C1) -/

/-- A device as it appears in a well-formed listing line. -/
structure DevSpec where
  name : List Char
  udid : List Char
  state : List Char
deriving DecidableEq, Repr

/-- A section: an sdk version capture and its devices, in order. -/
structure SectionSpec where
  sdk : List Char
  devices : List DevSpec
deriving DecidableEq, Repr

/-- The text of one device line after its 4-space indent:
`<name> (<udid>) (<state>)`. -/
def renderDev (d : DevSpec) : List Char :=
  d.name ++ ' ' :: '(' :: (d.udid ++ ')' :: ' ' :: '(' :: (d.state ++ [')']))

/-- `\n    <body>` for each body, then `rest`. -/
def renderBodies : List (List Char) → List Char → List Char
  | [], rest => rest
  | b :: bs, rest => '\n' :: ' ' :: ' ' :: ' ' :: ' ' :: (b ++ renderBodies bs rest)

/-- `-- iOS <sdk> --` then the indented device lines, then `rest`. -/
def renderSection (s : SectionSpec) (rest : List Char) : List Char :=
  headerLit ++ s.sdk ++ " --".toList ++ renderBodies (s.devices.map renderDev) rest

/-- The full listing: sections separated by single newlines, no trailing
newline. -/
def renderSections : List SectionSpec → List Char
  | [] => []
  | s :: ss =>
    renderSection s (match ss with
      | [] => []
      | _ :: _ => '\n' :: renderSections ss)

/-- Well-formed device name: at least two characters, not starting with
whitespace, no line terminators. -/
def wfName (n : List Char) : Bool :=
  decide (2 ≤ n.length) && !isJsSpace (n.headD ' ') && n.all isDotChar

/-- Well-formed udid: a `\w` run, a hyphen, then at least two more
word-or-hyphen characters ending in a word character (the shape the line
pattern `\w+-.+\w+` expects). -/
def wfUdid (u : List Char) : Bool :=
  let w0 := u.takeWhile isWordChar
  let r := u.drop w0.length
  !w0.isEmpty &&
    (match r with
     | '-' :: t =>
       decide (2 ≤ t.length) && t.all (fun c => isWordChar c || c = '-')
         && isWordChar (t.getLastD ' ')
     | _ => false)

/-- Well-formed state: one word of length ≥ 2, or two nonempty words joined
by a single space (the shape `\w+\s?\w+` expects, e.g. `Shutdown`,
`Shutting Down`). -/
def wfState (s : List Char) : Bool :=
  (s.all isWordChar && decide (2 ≤ s.length))
    || (decide (s.count ' ' = 1) && s.all (fun c => isWordChar c || c = ' ')
        && isWordChar (s.headD ' ') && isWordChar (s.getLastD ' '))

/-- Well-formed sdk version capture: nonempty, no line terminator, and (so
that JS object key enumeration keeps insertion order) not a pure digit
string, which would be an array-index key ordered before all string keys. -/
def wfSdk (v : List Char) : Bool :=
  !v.isEmpty && v.all isDotChar && v.any (fun c => !c.isDigit)

def wfDev (d : DevSpec) : Bool :=
  wfName d.name && wfUdid d.udid && wfState d.state

def wfSection (s : SectionSpec) : Bool :=
  wfSdk s.sdk && s.devices.all wfDev

/-- What C1 (amended) expects `getDevicesByParsing` to return. -/
def expectedInventory (secs : List SectionSpec) :
    List (String × List DeviceRecord) :=
  secs.map (fun s =>
    (String.mk s.sdk,
      s.devices.map (fun d =>
        ⟨String.mk d.name, String.mk d.udid, String.mk d.state, String.mk s.sdk⟩)))

/-! ### Generic helper lemmas for the regex proofs -/

theorem ne_of_class (p : Char → Bool) (c d : Char) (h : p c = true)
    (hd : p d = false) : c ≠ d := by
  rintro rfl
  rw [h] at hd
  cases hd

theorem class_of_ne (p : Char → Bool) (c : Char)
    (h : ∀ d, p d = false → c ≠ d) (hfin : ∀ e, (∀ d, p d = false → e ≠ d) → p e = true) :
    p c = true := hfin c h

theorem wordChar_dot (c : Char) (h : isWordChar c = true) : isDotChar c = true := by
  have h1 : c ≠ '\n' := ne_of_class isWordChar c '\n' h (by decide)
  have h2 : c ≠ '\r' := ne_of_class isWordChar c '\r' h (by decide)
  have h3 : c ≠ ' ' := ne_of_class isWordChar c ' ' h (by decide)
  have h4 : c ≠ ' ' := ne_of_class isWordChar c ' ' h (by decide)
  simp [isDotChar, h1, h2, h3, h4]

theorem wordChar_not_space (c : Char) (h : isWordChar c = true) :
    isJsSpace c = false := by
  have h1 : c ≠ ' ' := ne_of_class isWordChar c ' ' h (by decide)
  have h2 : c ≠ '\t' := ne_of_class isWordChar c '\t' h (by decide)
  have h3 : c ≠ '\n' := ne_of_class isWordChar c '\n' h (by decide)
  have h4 : c ≠ '\r' := ne_of_class isWordChar c '\r' h (by decide)
  have h5 : c ≠ '\x0b' := ne_of_class isWordChar c '\x0b' h (by decide)
  have h6 : c ≠ '\x0c' := ne_of_class isWordChar c '\x0c' h (by decide)
  simp [isJsSpace, h1, h2, h3, h4, h5, h6]

theorem takeWhile_all_eq (p : Char → Bool) (A : List Char)
    (h : ∀ c ∈ A, p c = true) : A.takeWhile p = A := by
  induction A with
  | nil => rfl
  | cons c t ih =>
    have hc := h c (by simp)
    simp only [List.takeWhile_cons, hc, if_true]
    rw [ih (fun d hd => h d (by simp [hd]))]

/-- `takeWhile` over `A ++ B` stops exactly at the end of all-`p` `A` when
`B` is empty or starts with a non-`p` character. -/
theorem takeWhile_append_stop (p : Char → Bool) (A B : List Char)
    (hA : ∀ c ∈ A, p c = true)
    (hB : B = [] ∨ ∃ d t, B = d :: t ∧ p d = false) :
    (A ++ B).takeWhile p = A := by
  induction A with
  | nil =>
    rcases hB with rfl | ⟨d, t, rfl, hd⟩
    · rfl
    · simp [List.takeWhile_cons, hd]
  | cons c t ih =>
    have hc := hA c (by simp)
    simp only [List.cons_append, List.takeWhile_cons, hc, if_true]
    rw [ih (fun d hd => hA d (by simp [hd]))]

theorem drop_append_plus {α : Type} (A B : List α) (k : Nat) :
    (A ++ B).drop (A.length + k) = B.drop k := by
  induction A with
  | nil => simp
  | cons c t ih =>
    simp only [List.cons_append, List.length_cons]
    rw [show t.length + 1 + k = (t.length + k) + 1 from by omega]
    simpa using ih

theorem firstSome_cons_some {α β : Type} (x : α) (t : List α) (f : α → Option β)
    (b : β) (h : f x = some b) : firstSome (x :: t) f = some b := by
  simp [firstSome, h]

theorem firstSome_cons_none {α β : Type} (x : α) (t : List α) (f : α → Option β)
    (h : f x = none) : firstSome (x :: t) f = firstSome t f := by
  simp [firstSome, h]

theorem firstSome_all_none {α β : Type} (xs : List α) (f : α → Option β)
    (h : ∀ x ∈ xs, f x = none) : firstSome xs f = none := by
  induction xs with
  | nil => rfl
  | cons x t ih =>
    rw [firstSome_cons_none x t f (h x (by simp))]
    exact ih (fun y hy => h y (by simp [hy]))

theorem mem_descRange (N x : Nat) : x ∈ descRange N ↔ 1 ≤ x ∧ x ≤ N := by
  induction N with
  | zero =>
    simp only [descRange, List.not_mem_nil, false_iff]
    omega
  | succ n ih =>
    simp only [descRange, List.mem_cons, ih]
    omega

/-- The greedy enumeration: if every extent above `lo` fails and `lo`
succeeds, the result is `lo`'s. -/
theorem firstSome_descRange {β : Type} (N lo : Nat) (f : Nat → Option β) (b : β)
    (h1 : 1 ≤ lo) (h2 : lo ≤ N)
    (hnone : ∀ x, lo < x → x ≤ N → f x = none)
    (hlo : f lo = some b) : firstSome (descRange N) f = some b := by
  induction N with
  | zero => omega
  | succ n ih =>
    by_cases hl : lo = n + 1
    · subst hl
      exact firstSome_cons_some _ _ f b hlo
    · have hlt : lo ≤ n := by omega
      rw [show descRange (n + 1) = (n + 1) :: descRange n from rfl]
      rw [firstSome_cons_none _ _ f (hnone (n + 1) (by omega) (by omega))]
      exact ih hlt (fun x hx1 hx2 => hnone x hx1 (by omega))

theorem descRange_none {β : Type} (N : Nat) (f : Nat → Option β)
    (h : ∀ x, 1 ≤ x → x ≤ N → f x = none) : firstSome (descRange N) f = none :=
  firstSome_all_none _ f (fun x hx => by
    have := (mem_descRange N x).mp hx
    exact h x this.1 this.2)

theorem litParen_none {γ : Type} (l : List Char) (F : List Char → Option γ)
    (h : ¬ l[0]? = some ')') : litParen l F = none := by
  unfold litParen
  split
  · exact (h (by simp)).elim
  · rfl

theorem litDash_none {γ : Type} (l : List Char) (F : List Char → Option γ)
    (h : ¬ l[0]? = some '-') : litDash l F = none := by
  unfold litDash
  split
  · exact (h (by simp)).elim
  · rfl

theorem litSpParen_none {γ : Type} (l : List Char) (F : List Char → Option γ)
    (h : ¬(l[0]? = some ' ' ∧ l[1]? = some '(')) : litSpParen l F = none := by
  unfold litSpParen
  split
  · exact (h ⟨by simp, by simp⟩).elim
  · rfl

theorem litParenSpParen_none {γ : Type} (l : List Char) (F : List Char → Option γ)
    (h : ¬(l[0]? = some ')' ∧ l[1]? = some ' ' ∧ l[2]? = some '(')) :
    litParenSpParen l F = none := by
  unfold litParenSpParen
  split
  · exact (h ⟨by simp, by simp, by simp⟩).elim
  · rfl

theorem litParen_cons {γ : Type} (r : List Char) (F : List Char → Option γ) :
    litParen (')' :: r) F = F r := rfl

theorem litDash_cons {γ : Type} (r : List Char) (F : List Char → Option γ) :
    litDash ('-' :: r) F = F r := rfl

theorem litSpParen_cons {γ : Type} (r : List Char) (F : List Char → Option γ) :
    litSpParen (' ' :: '(' :: r) F = F r := rfl

theorem litParenSpParen_cons {γ : Type} (r : List Char) (F : List Char → Option γ) :
    litParenSpParen (')' :: ' ' :: '(' :: r) F = F r := rfl

/-! ### Structure extracted from the well-formedness checks -/

theorem count_one_split (l : List Char) (h : l.count ' ' = 1) :
    ∃ A B, l = A ++ ' ' :: B ∧ (∀ c ∈ A, c ≠ ' ') ∧ (∀ c ∈ B, c ≠ ' ') := by
  induction l with
  | nil => simp [List.count_nil] at h
  | cons c t ih =>
    rw [List.count_cons] at h
    by_cases hc : c = ' '
    · subst hc
      simp only [beq_self_eq_true, if_true] at h
      have ht : t.count ' ' = 0 := by omega
      refine ⟨[], t, by simp, by simp, ?_⟩
      intro d hd hds
      subst hds
      rw [List.count_eq_zero] at ht
      exact ht hd
    · have hcc : (c == ' ') = false := by simp [hc]
      rw [hcc] at h
      simp only [if_false, Bool.false_eq_true] at h
      obtain ⟨A, B, rfl, hA, hB⟩ := ih (by omega)
      exact ⟨c :: A, B, by simp, by
        intro d hd
        rcases List.mem_cons.mp hd with rfl | hd2
        · exact hc
        · exact hA d hd2, hB⟩

theorem wfState_cases (st : List Char) (h : wfState st = true) :
    ((∀ c ∈ st, isWordChar c = true) ∧ 2 ≤ st.length)
    ∨ ∃ w1 w2, st = w1 ++ ' ' :: w2 ∧ (∀ c ∈ w1, isWordChar c = true)
        ∧ (∀ c ∈ w2, isWordChar c = true) ∧ w1 ≠ [] ∧ w2 ≠ [] := by
  unfold wfState at h
  simp only [Bool.or_eq_true, Bool.and_eq_true, decide_eq_true_eq,
    List.all_eq_true] at h
  rcases h with ⟨ha, hl⟩ | ⟨⟨⟨hcount, hset⟩, hhead⟩, hlast⟩
  · exact Or.inl ⟨fun c hc => ha c hc, hl⟩
  · obtain ⟨A, B, rfl, hA, hB⟩ := count_one_split _ hcount
    have hwA : ∀ c ∈ A, isWordChar c = true := by
      intro c hc
      rcases hset c (by simp [hc]) with hw | hs
      · exact hw
      · exact absurd hs (hA c hc)
    have hwB : ∀ c ∈ B, isWordChar c = true := by
      intro c hc
      rcases hset c (by simp [hc]) with hw | hs
      · exact hw
      · exact absurd hs (hB c hc)
    have hAne : A ≠ [] := by
      rintro rfl
      rw [show (([] : List Char) ++ ' ' :: B).headD ' ' = ' ' from rfl] at hhead
      exact absurd hhead (by decide)
    have hBne : B ≠ [] := by
      rintro rfl
      rw [show ((A ++ [' ']).getLastD ' ') = ' '
        from List.getLastD_concat _ _ _] at hlast
      exact absurd hlast (by decide)
    exact Or.inr ⟨A, B, rfl, hwA, hwB, hAne, hBne⟩

theorem wfUdid_cases (u : List Char) (h : wfUdid u = true) :
    ∃ w0 m cl, u = w0 ++ '-' :: (m ++ [cl])
      ∧ (∀ c ∈ w0, isWordChar c = true) ∧ w0 ≠ []
      ∧ (∀ c ∈ m, isWordChar c = true ∨ c = '-')
      ∧ m ≠ [] ∧ isWordChar cl = true := by
  unfold wfUdid at h
  simp only [Bool.and_eq_true] at h
  obtain ⟨hne, hmatch⟩ := h
  obtain ⟨t0, ht0⟩ := List.takeWhile_prefix (l := u) (p := isWordChar)
  have hdrop : u.drop (u.takeWhile isWordChar).length = t0 := by
    have h2 : (u.takeWhile isWordChar ++ t0).drop (u.takeWhile isWordChar).length = t0 :=
      List.drop_left _ _
    rw [ht0] at h2
    exact h2
  rw [hdrop] at hmatch
  split at hmatch
  · rename_i t
    simp only [Bool.and_eq_true, decide_eq_true_eq, List.all_eq_true] at hmatch
    obtain ⟨⟨hlen, hall⟩, hlast⟩ := hmatch
    have htne : t ≠ [] := by
      rintro rfl
      simp at hlen
    have ht : t.dropLast ++ [t.getLast htne] = t := List.dropLast_append_getLast htne
    refine ⟨u.takeWhile isWordChar, t.dropLast, t.getLast htne, ?_, ?_, ?_, ?_, ?_, ?_⟩
    · rw [ht]
      exact ht0.symm
    · exact fun c hc => List.mem_takeWhile_imp hc
    · intro h0
      rw [h0] at hne
      simp at hne
    · intro c hc
      have hct : c ∈ t := by
        rw [← ht]
        simp [hc]
      rcases Bool.or_eq_true_iff.mp (hall c hct) with hw | hdash
      · exact Or.inl hw
      · exact Or.inr (of_decide_eq_true hdash)
    · intro h0
      have := congrArg List.length ht
      rw [h0] at this
      simp at this
      omega
    · rw [← ht] at hlast
      rw [List.getLastD_concat] at hlast
      exact hlast
  · cases hmatch

theorem wfName_cases (n : List Char) (h : wfName n = true) :
    ∃ c0 ntail, n = c0 :: ntail ∧ ntail ≠ [] ∧ isJsSpace c0 = false
      ∧ (∀ c ∈ n, isDotChar c = true) := by
  unfold wfName at h
  simp only [Bool.and_eq_true, decide_eq_true_eq, List.all_eq_true,
    Bool.not_eq_true'] at h
  obtain ⟨⟨hlen, hhead⟩, hdot⟩ := h
  cases n with
  | nil => simp at hlen
  | cons c0 t =>
    refine ⟨c0, t, rfl, ?_, ?_, fun c hc => hdot c hc⟩
    · intro h0
      subst h0
      simp at hlen
    · simpa using hhead

/-! ### Correctness of the group matchers on well-formed input -/

theorem wordRunLen_append_stop (A B : List Char)
    (hA : ∀ c ∈ A, isWordChar c = true)
    (hB : B = [] ∨ ∃ d t, B = d :: t ∧ isWordChar d = false) :
    wordRunLen (A ++ B) = A.length := by
  unfold wordRunLen
  rw [takeWhile_append_stop _ _ _ hA hB]

/-- Group 3 (`(\w+\s?\w+)\)`) captures exactly a well-formed state. -/
theorem matchG3_state (st r : List Char) (hs : wfState st = true) :
    matchG3 (st ++ ')' :: r) = some st := by
  rcases wfState_cases st hs with ⟨hword, hlen⟩ | ⟨w1, w2, hstw, hw1, hw2, h1ne, h2ne⟩
  · -- one word of length ≥ 2
    have hstne : st ≠ [] := by
      rintro rfl
      simp at hlen
    have ht : st.dropLast ++ [st.getLast hstne] = st :=
      List.dropLast_append_getLast hstne
    have hclword : isWordChar (st.getLast hstne) = true := by
      apply hword
      exact List.getLast_mem hstne
    have hrun : wordRunLen (st ++ ')' :: r) = st.length :=
      wordRunLen_append_stop _ _ hword (Or.inr ⟨')', r, rfl, by decide⟩)
    unfold matchG3
    rw [hrun]
    apply firstSome_descRange st.length (st.length - 1) _ st
      (by
        have := congrArg List.length ht
        simp at this
        omega)
      (by omega)
    · intro x hx1 hx2
      have hxx : x = st.length := by omega
      subst hxx
      dsimp only
      rw [List.take_left, List.drop_left]
      rfl
    · have hcs : st ++ ')' :: r = st.dropLast ++ (st.getLast hstne :: ')' :: r) := by
        conv_lhs => rw [← ht]
        rw [List.append_assoc]
        rfl
      have hlen2 : st.length - 1 = st.dropLast.length := by
        rw [List.length_dropLast]
      dsimp only
      rw [hlen2, hcs, List.take_left, List.drop_left]
      have hspace : isJsSpace (st.getLast hstne) = false :=
        wordChar_not_space _ hclword
      rw [show (match st.getLast hstne :: ')' :: r with
          | c :: t => if isJsSpace c then [([c], t), (([] : List Char), st.getLast hstne :: ')' :: r)]
            else [(([] : List Char), st.getLast hstne :: ')' :: r)]
          | [] => [(([] : List Char), st.getLast hstne :: ')' :: r)])
        = if isJsSpace (st.getLast hstne) then
            [([st.getLast hstne], ')' :: r), ([], st.getLast hstne :: ')' :: r)]
          else [([], st.getLast hstne :: ')' :: r)] from rfl]
      rw [hspace]
      simp only [if_false, Bool.false_eq_true]
      apply firstSome_cons_some
      dsimp only
      have hrun1 : wordRunLen (st.getLast hstne :: ')' :: r) = 1 := by
        unfold wordRunLen
        rw [List.takeWhile_cons, hclword]
        simp [List.takeWhile_cons]
        decide
      rw [hrun1]
      apply firstSome_cons_some
      dsimp only
      rw [show (st.getLast hstne :: ')' :: r).drop 1 = ')' :: r from rfl]
      unfold litParen
      rw [show (st.getLast hstne :: ')' :: r).take 1 = [st.getLast hstne] from rfl]
      rw [show st.dropLast ++ [] ++ [st.getLast hstne] = st.dropLast ++ [st.getLast hstne] by simp]
      rw [ht]
      rfl
  · -- two words separated by one space
    subst hstw
    have hrun : wordRunLen ((w1 ++ ' ' :: w2) ++ ')' :: r) = w1.length := by
      rw [List.append_assoc]
      exact wordRunLen_append_stop _ _ hw1 (Or.inr ⟨' ', w2 ++ ')' :: r, rfl, by decide⟩)
    unfold matchG3
    rw [hrun]
    apply firstSome_descRange w1.length w1.length _ (w1 ++ ' ' :: w2)
      (by
        cases w1 with
        | nil => exact absurd rfl h1ne
        | cons a t => simp)
      (Nat.le_refl _)
    · intro x hx1 hx2
      omega
    · dsimp only
      have hassoc : (w1 ++ ' ' :: w2) ++ ')' :: r = w1 ++ (' ' :: (w2 ++ ')' :: r)) := by
        rw [List.append_assoc]
        rfl
      rw [hassoc, List.take_left, List.drop_left]
      rw [show (match ' ' :: (w2 ++ ')' :: r) with
          | c :: t => if isJsSpace c then [([c], t), (([] : List Char), ' ' :: (w2 ++ ')' :: r))]
            else [(([] : List Char), ' ' :: (w2 ++ ')' :: r))]
          | [] => [(([] : List Char), ' ' :: (w2 ++ ')' :: r))])
        = [([' '], w2 ++ ')' :: r), ([], ' ' :: (w2 ++ ')' :: r))] from rfl]
      apply firstSome_cons_some
      dsimp only
      have hrun2 : wordRunLen (w2 ++ ')' :: r) = w2.length :=
        wordRunLen_append_stop _ _ hw2 (Or.inr ⟨')', r, rfl, by decide⟩)
      rw [hrun2]
      apply firstSome_descRange w2.length w2.length _ (w1 ++ ' ' :: w2)
        (by
          cases w2 with
          | nil => exact absurd rfl h2ne
          | cons a t => simp)
        (Nat.le_refl _)
      · intro x hx1 hx2
        omega
      · dsimp only
        rw [List.drop_left]
        unfold litParen
        rw [List.take_left]
        rw [show w1 ++ [' '] ++ w2 = w1 ++ ' ' :: w2 by simp]
        rfl

/-- In `st ++ ")"` with `st` drawn from word-or-space characters, a `)` is
never followed by another character (it can only be the final one), so no
`) (`-style continuation exists at any index. -/
theorem stParen_no_close_then_space (st : List Char)
    (hset : ∀ c ∈ st, isWordChar c = true ∨ c = ' ') (k : Nat) :
    ¬((st ++ [')'])[k]? = some ')' ∧ (st ++ [')'])[k + 1]? = some ' ') := by
  rintro ⟨h1, h2⟩
  rcases Nat.lt_or_ge k st.length with hk | hk
  · rw [List.getElem?_append_left hk] at h1
    have hmem : ')' ∈ st := List.getElem?_mem h1
    rcases hset ')' hmem with hw | hs
    · exact absurd hw (by decide)
    · exact absurd hs (by decide)
  · rcases Nat.lt_or_ge k (st.length + 1) with hk2 | hk2
    · have hke : k = st.length := by omega
      subst hke
      rw [List.getElem?_append_right (by omega)] at h2
      simp at h2
    · rw [List.getElem?_eq_none (by simp; omega)] at h1
      cases h1

/-- Group 2 (`(\w+-.+\w+)\) \(` + group 3) captures exactly a well-formed
udid and then a well-formed state. -/
theorem matchG2_udid (u st : List Char)
    (hu : wfUdid u = true) (hs : wfState st = true) :
    matchG2 (u ++ ')' :: ' ' :: '(' :: (st ++ [')'])) = some (u, st) := by
  obtain ⟨w0, m, cl, rfl, hw0, h0ne, hm, hmne, hcl⟩ := wfUdid_cases u hu
  have hstset : ∀ c ∈ st, isWordChar c = true ∨ c = ' ' := by
    rcases wfState_cases st hs with ⟨hword, _⟩ | ⟨w1, w2, rfl, hw1, hw2, _, _⟩
    · exact fun c hc => Or.inl (hword c hc)
    · intro c hc
      rcases List.mem_append.mp hc with hc1 | hc2
      · exact Or.inl (hw1 c hc1)
      · rcases List.mem_cons.mp hc2 with rfl | hc3
        · exact Or.inr rfl
        · exact Or.inl (hw2 c hc3)
  -- the input, rewritten around the hyphen
  set R : List Char := m ++ cl :: ')' :: ' ' :: '(' :: (st ++ [')']) with hR
  have hcs : (w0 ++ '-' :: (m ++ [cl])) ++ ')' :: ' ' :: '(' :: (st ++ [')'])
      = w0 ++ '-' :: R := by
    rw [hR]
    simp [List.append_assoc]
  rw [hcs]
  have hrun0 : wordRunLen (w0 ++ '-' :: R) = w0.length :=
    wordRunLen_append_stop _ _ hw0 (Or.inr ⟨'-', R, rfl, by decide⟩)
  unfold matchG2
  rw [hrun0]
  apply firstSome_descRange w0.length w0.length _ (w0 ++ '-' :: (m ++ [cl]), st)
    (by
      cases w0 with
      | nil => exact absurd rfl h0ne
      | cons a t => simp)
    (Nat.le_refl _)
  · intro x hx1 hx2
    omega
  · dsimp only
    rw [List.drop_left, List.take_left]
    rw [litDash_cons]
    -- `.+` candidates: the dot run is all of R
    have hdotR : ∀ c ∈ R, isDotChar c = true := by
      intro c hc
      rw [hR] at hc
      rcases List.mem_append.mp hc with hc1 | hc2
      · rcases hm c hc1 with hw | rfl
        · exact wordChar_dot c hw
        · decide
      · rcases List.mem_cons.mp hc2 with rfl | hc3
        · exact wordChar_dot c hcl
        · rcases List.mem_cons.mp hc3 with rfl | hc4
          · decide
          · rcases List.mem_cons.mp hc4 with rfl | hc5
            · decide
            · rcases List.mem_cons.mp hc5 with rfl | hc6
              · decide
              · rcases List.mem_append.mp hc6 with hc7 | hc8
                · rcases hstset c hc7 with hw | rfl
                  · exact wordChar_dot c hw
                  · decide
                · rcases List.mem_cons.mp hc8 with rfl | hc9
                  · decide
                  · cases hc9
    have hdotrun : (R.takeWhile isDotChar).length = R.length := by
      rw [takeWhile_all_eq _ _ hdotR]
    rw [hdotrun]
    have hRlen : R.length = m.length + st.length + 5 := by
      rw [hR]
      simp
      omega
    apply firstSome_descRange R.length m.length _ (w0 ++ '-' :: (m ++ [cl]), st)
      (by
        cases m with
        | nil => exact absurd rfl hmne
        | cons a t => simp)
      (by omega)
    · -- no extent beyond the minimal one admits `\w+\) \(` afterwards
      intro x hxlo hxhi
      dsimp only
      -- R.drop x for the various zones
      rcases Nat.lt_or_ge x (m.length + 4) with hx4 | hx4
      · have hx3 : x = m.length + 1 ∨ x = m.length + 2 ∨ x = m.length + 3 := by
          omega
        have hzero : wordRunLen (R.drop x) = 0 := by
          rcases hx3 with rfl | rfl | rfl
          · rw [hR, show m.length + 1 = m.length + 1 from rfl,
              drop_append_plus m _ 1]
            rfl
          · rw [hR, drop_append_plus m _ 2]
            rfl
          · rw [hR, drop_append_plus m _ 3]
            rfl
        rw [hzero]
        rfl
      · obtain ⟨k, rfl⟩ : ∃ k, x = m.length + (4 + k) := ⟨x - (m.length + 4), by omega⟩
        have hdropx : R.drop (m.length + (4 + k)) = (st ++ [')']).drop k := by
          rw [hR, drop_append_plus m _ (4 + k)]
          rw [show (cl :: ')' :: ' ' :: '(' :: (st ++ [')']))
              = [cl, ')', ' ', '('] ++ (st ++ [')']) from rfl]
          rw [show (4 : Nat) + k = ([cl, ')', ' ', '('] : List Char).length + k by simp]
          rw [drop_append_plus [cl, ')', ' ', '('] _ k]
        rw [hdropx]
        apply descRange_none
        intro y hy1 hy2
        apply litParenSpParen_none
        rw [List.drop_drop]
        rintro ⟨h1, h2, _⟩
        rw [List.getElem?_drop] at h1
        rw [List.getElem?_drop] at h2
        refine stParen_no_close_then_space st hstset (k + y) ⟨?_, ?_⟩
        · simpa using h1
        · simpa using h2
    · -- the extent `m`: one trailing word char, then `) (`, then group 3
      dsimp only
      have hdropm : R.drop m.length = cl :: ')' :: ' ' :: '(' :: (st ++ [')']) := by
        rw [hR, show m.length = m.length + 0 by omega, drop_append_plus m _ 0]
        rfl
      have htakem : R.take m.length = m := by
        rw [hR]
        exact List.take_left _ _
      rw [hdropm]
      have hrun1 : wordRunLen (cl :: ')' :: ' ' :: '(' :: (st ++ [')'])) = 1 := by
        unfold wordRunLen
        rw [List.takeWhile_cons, hcl]
        simp [List.takeWhile_cons]
        decide
      rw [hrun1]
      apply firstSome_cons_some
      rw [show (cl :: ')' :: ' ' :: '(' :: (st ++ [')'])).drop 1
          = ')' :: ' ' :: '(' :: (st ++ [')']) from rfl]
      rw [litParenSpParen_cons]
      dsimp only
      rw [matchG3_state st [] hs]
      rw [htakem]
      rw [show (cl :: ')' :: ' ' :: '(' :: (st ++ [')'])).take 1 = [cl] from rfl]
      rfl

/-- In `st ++ ")"` with a well-formed state, a space is never followed by an
opening parenthesis. -/
theorem stParen_no_space_then_open (st : List Char) (hs : wfState st = true)
    (k : Nat) :
    ¬((st ++ [')'])[k]? = some ' ' ∧ (st ++ [')'])[k + 1]? = some '(') := by
  rintro ⟨h1, h2⟩
  rcases wfState_cases st hs with ⟨hword, _⟩ | ⟨w1, w2, rfl, hw1, hw2, h1ne, h2ne⟩
  · rcases Nat.lt_or_ge k st.length with hk | hk
    · rw [List.getElem?_append_left hk] at h1
      have hmem : ' ' ∈ st := List.getElem?_mem h1
      exact absurd (hword ' ' hmem) (by decide)
    · rcases Nat.lt_or_ge k (st.length + 1) with hk2 | hk2
      · have hke : k = st.length := by omega
        subst hke
        rw [List.getElem?_append_right (by omega)] at h1
        simp at h1
      · rw [List.getElem?_eq_none (by simp; omega)] at h1
        cases h1
  · have hre : (w1 ++ ' ' :: w2) ++ [')'] = w1 ++ ' ' :: (w2 ++ [')']) := by
      simp
    rw [hre] at h1 h2
    rcases Nat.lt_or_ge k w1.length with hk | hk
    · rw [List.getElem?_append_left hk] at h1
      have hmem : ' ' ∈ w1 := List.getElem?_mem h1
      exact absurd (hw1 ' ' hmem) (by decide)
    · rw [List.getElem?_append_right hk] at h1
      rw [List.getElem?_append_right (by omega)] at h2
      rcases Nat.eq_or_lt_of_le hk with hke | hk2

      · rw [show k - w1.length = 0 by omega] at h1
        rw [show k + 1 - w1.length = 1 by omega] at h2
        simp only [List.getElem?_cons_succ, List.getElem?_cons_zero] at h1 h2
        cases w2 with
        | nil => exact absurd rfl h2ne
        | cons wh wt =>
          simp only [List.cons_append, List.getElem?_cons_zero,
            Option.some_inj] at h2
          cases h2
          exact absurd (hw2 '(' (by simp)) (by decide)
      · obtain ⟨j, hj⟩ : ∃ j, k - w1.length = j + 1 := ⟨k - w1.length - 1, by omega⟩
        rw [hj, List.getElem?_cons_succ] at h1
        rcases Nat.lt_or_ge j w2.length with hjw | hjw
        · rw [List.getElem?_append_left hjw] at h1
          have hmem : ' ' ∈ w2 := List.getElem?_mem h1
          exact absurd (hw2 ' ' hmem) (by decide)
        · rcases Nat.lt_or_ge j (w2.length + 1) with hjw2 | hjw2
          · have hje : j = w2.length := by omega
            subst hje
            rw [List.getElem?_append_right (by omega)] at h1
            simp at h1
          · rw [List.getElem?_eq_none (by simp; omega)] at h1
            cases h1

theorem wfUdid_chars (u : List Char) (h : wfUdid u = true) :
    ∀ c ∈ u, isWordChar c = true ∨ c = '-' := by
  obtain ⟨w0, m, cl, rfl, hw0, _, hm, _, hcl⟩ := wfUdid_cases u h
  intro c hc
  rcases List.mem_append.mp hc with h1 | h2
  · exact Or.inl (hw0 c h1)
  · rcases List.mem_cons.mp h2 with rfl | h3
    · exact Or.inr rfl
    · rcases List.mem_append.mp h3 with h4 | h5
      · exact hm c h4
      · rcases List.mem_cons.mp h5 with rfl | h6
        · exact Or.inl hcl
        · cases h6

theorem wfState_chars (st : List Char) (h : wfState st = true) :
    ∀ c ∈ st, isWordChar c = true ∨ c = ' ' := by
  rcases wfState_cases st h with ⟨hword, _⟩ | ⟨w1, w2, rfl, hw1, hw2, _, _⟩
  · exact fun c hc => Or.inl (hword c hc)
  · intro c hc
    rcases List.mem_append.mp hc with hc1 | hc2
    · exact Or.inl (hw1 c hc1)
    · rcases List.mem_cons.mp hc2 with rfl | hc3
      · exact Or.inr rfl
      · exact Or.inl (hw2 c hc3)

/-- `matchG2` cannot start anywhere in a hyphen-free string. -/
theorem matchG2_none (l : List Char) (h : ∀ c ∈ l, c ≠ '-') :
    matchG2 l = none := by
  unfold matchG2
  apply descRange_none
  intro a _ _
  apply litDash_none
  intro hc
  have hmem : '-' ∈ l := List.drop_subset a l (List.getElem?_mem hc)
  exact absurd rfl (h '-' hmem)

theorem matchAt_cons_ns (c : Char) (t : List Char) (hc : isJsSpace c = false) :
    matchAt (c :: t) = firstSome (descRange ((t.takeWhile isDotChar).length))
      (fun x => litSpParen (t.drop x) (fun r1 =>
        (matchG2 r1).map (fun g => (c :: t.take x, g.1, g.2)))) := by
  simp only [matchAt, hc, Bool.false_eq_true, if_false]

/-- The anchored line pattern matches a rendered device line, capturing
exactly the name, the udid and the state. -/
theorem matchAt_render (n u st : List Char)
    (hn : wfName n = true) (hu : wfUdid u = true) (hs : wfState st = true) :
    matchAt (n ++ ' ' :: '(' :: (u ++ ')' :: ' ' :: '(' :: (st ++ [')']))) =
      some (n, u, st) := by
  obtain ⟨c0, ntail, rfl, htne, hc0, hdotn⟩ := wfName_cases n hn
  have huset := wfUdid_chars u hu
  have hstset := wfState_chars st hs
  rw [List.cons_append]
  set T : List Char :=
    ntail ++ ' ' :: '(' :: (u ++ ')' :: ' ' :: '(' :: (st ++ [')'])) with hT
  rw [matchAt_cons_ns c0 T hc0]
  have hdott : ∀ c ∈ T, isDotChar c = true := by
    intro c hc
    rw [hT] at hc
    rcases List.mem_append.mp hc with h1 | h2
    · exact hdotn c (List.mem_cons_of_mem _ h1)
    · rcases List.mem_cons.mp h2 with rfl | h3
      · decide
      · rcases List.mem_cons.mp h3 with rfl | h4
        · decide
        · rcases List.mem_append.mp h4 with h5 | h6
          · rcases huset c h5 with hw | rfl
            · exact wordChar_dot c hw
            · decide
          · rcases List.mem_cons.mp h6 with rfl | h7
            · decide
            · rcases List.mem_cons.mp h7 with rfl | h8
              · decide
              · rcases List.mem_cons.mp h8 with rfl | h9
                · decide
                · rcases List.mem_append.mp h9 with h10 | h11
                  · rcases hstset c h10 with hw | rfl
                    · exact wordChar_dot c hw
                    · decide
                  · rcases List.mem_cons.mp h11 with rfl | h12
                    · decide
                    · cases h12
  rw [takeWhile_all_eq _ _ hdott]
  have hTlen : T.length = ntail.length + u.length + st.length + 6 := by
    rw [hT]
    simp
    omega
  apply firstSome_descRange T.length ntail.length _ (c0 :: ntail, u, st)
    (by
      cases ntail with
      | nil => exact absurd rfl htne
      | cons a t => simp)
    (by omega)
  · -- no longer extent of the name group admits the rest of the pattern
    intro x hx1 hx2
    dsimp only
    by_cases hxe : x = ntail.length + u.length + 3
    · -- the separator between udid and state: matchG2 finds no hyphen
      subst hxe
      have hsplit : T = (ntail ++ ' ' :: '(' :: (u ++ [')']))
          ++ (' ' :: '(' :: (st ++ [')'])) := by
        rw [hT]
        simp
      have hlen2 : ntail.length + u.length + 3
          = (ntail ++ ' ' :: '(' :: (u ++ [')'])).length := by
        simp
        omega
      have hnd : ∀ c ∈ st ++ [')'], c ≠ '-' := by
        intro c hc
        rcases List.mem_append.mp hc with h1 | h2
        · rcases hstset c h1 with hw | rfl
          · exact ne_of_class isWordChar c '-' hw (by decide)
          · decide
        · rcases List.mem_cons.mp h2 with rfl | h3
          · decide
          · cases h3
      rw [hsplit, hlen2, List.drop_left, litSpParen_cons,
        matchG2_none (st ++ [')']) hnd]
      rfl
    · -- elsewhere no space-then-open-paren occurs after the minimal extent
      apply litSpParen_none
      rintro ⟨h1, h2⟩
      rw [List.getElem?_drop] at h1
      rw [List.getElem?_drop] at h2
      rw [Nat.add_zero] at h1
      rw [hT] at h1 h2
      rw [List.getElem?_append_right (by omega)] at h1
      rw [List.getElem?_append_right (by omega)] at h2
      obtain ⟨j, hj⟩ : ∃ j, x - ntail.length = j + 1 :=
        ⟨x - ntail.length - 1, by omega⟩
      have hj2 : x + 1 - ntail.length = j + 2 := by omega
      rw [hj, List.getElem?_cons_succ] at h1
      rw [hj2, List.getElem?_cons_succ, List.getElem?_cons_succ] at h2
      cases j with
      | zero =>
        rw [List.getElem?_cons_zero] at h1
        exact absurd (Option.some_inj.mp h1) (by decide)
      | succ i =>
        rw [List.getElem?_cons_succ] at h1
        rcases Nat.lt_or_ge i u.length with hiu | hiu
        · rw [List.getElem?_append_left hiu] at h1
          rcases huset ' ' (List.getElem?_mem h1) with hw | hd
          · exact absurd hw (by decide)
          · exact absurd hd (by decide)
        · rw [List.getElem?_append_right hiu] at h1
          rw [List.getElem?_append_right (by omega)] at h2
          rw [show i + 1 - u.length = (i - u.length) + 1 from by omega] at h2
          rcases Nat.lt_or_ge (i - u.length) 3 with hk3 | hk3
          · have he : i - u.length = 0 ∨ i - u.length = 1 ∨ i - u.length = 2 := by
              omega
            rcases he with he | he | he
            · rw [he, List.getElem?_cons_zero] at h1
              exact absurd (Option.some_inj.mp h1) (by decide)
            · exact hxe (by omega)
            · rw [he, List.getElem?_cons_succ, List.getElem?_cons_succ,
                List.getElem?_cons_zero] at h1
              exact absurd (Option.some_inj.mp h1) (by decide)
          · obtain ⟨k, hk⟩ : ∃ k, i - u.length = k + 3 :=
              ⟨i - u.length - 3, by omega⟩
            rw [hk, List.getElem?_cons_succ, List.getElem?_cons_succ,
              List.getElem?_cons_succ] at h1
            rw [hk, show k + 3 + 1 = (k + 1) + 3 from by omega,
              List.getElem?_cons_succ, List.getElem?_cons_succ,
              List.getElem?_cons_succ] at h2
            exact stParen_no_space_then_open st hs k ⟨h1, h2⟩
  · -- the minimal extent: exactly the name, then the udid and state groups
    dsimp only
    have hdroplo : T.drop ntail.length
        = ' ' :: '(' :: (u ++ ')' :: ' ' :: '(' :: (st ++ [')'])) := by
      rw [hT]
      exact List.drop_left _ _
    have htakelo : T.take ntail.length = ntail := by
      rw [hT]
      exact List.take_left _ _
    rw [hdroplo, litSpParen_cons, matchG2_udid u st hu hs, htakelo]
    rfl

theorem matchAt_cons_space (c : Char) (t : List Char) (hc : isJsSpace c = true) :
    matchAt (c :: t) = none := by
  simp only [matchAt, hc, if_true]

theorem lineExec_cons_none (c : Char) (t : List Char)
    (h : matchAt (c :: t) = none) : lineExec (c :: t) = lineExec t := by
  show (match matchAt (c :: t) with
    | some r => some r
    | none => lineExec t) = lineExec t
  rw [h]

theorem lineExec_cons_some (c : Char) (t : List Char)
    (r : List Char × List Char × List Char)
    (h : matchAt (c :: t) = some r) : lineExec (c :: t) = some r := by
  show (match matchAt (c :: t) with
    | some r => some r
    | none => lineExec t) = some r
  rw [h]

theorem wfDev_parts (d : DevSpec) (hd : wfDev d = true) :
    wfName d.name = true ∧ wfUdid d.udid = true ∧ wfState d.state = true := by
  unfold wfDev at hd
  simp only [Bool.and_eq_true] at hd
  exact ⟨hd.1.1, hd.1.2, hd.2⟩

/-- A rendered device line, with its 4-space indent, matches the line
pattern at the first non-space character, capturing name, udid and state. -/
theorem lineExec_indent (d : DevSpec) (hd : wfDev d = true) :
    lineExec (' ' :: ' ' :: ' ' :: ' ' :: renderDev d)
      = some (d.name, d.udid, d.state) := by
  obtain ⟨hn, hu, hs⟩ := wfDev_parts d hd
  obtain ⟨c0, ntail, hne, -, hc0, -⟩ := wfName_cases d.name hn
  rw [lineExec_cons_none _ _ (matchAt_cons_space _ _ (by decide)),
    lineExec_cons_none _ _ (matchAt_cons_space _ _ (by decide)),
    lineExec_cons_none _ _ (matchAt_cons_space _ _ (by decide)),
    lineExec_cons_none _ _ (matchAt_cons_space _ _ (by decide))]
  unfold renderDev
  rw [hne, List.cons_append]
  apply lineExec_cons_some
  rw [← List.cons_append, ← hne]
  exact matchAt_render d.name d.udid d.state hn hu hs

/-- A rendered device line is nonempty and free of line terminators. -/
theorem renderDev_dot (d : DevSpec) (hd : wfDev d = true) :
    renderDev d ≠ [] ∧ ∀ c ∈ renderDev d, isDotChar c = true := by
  obtain ⟨hn, hu, hs⟩ := wfDev_parts d hd
  have hnd : ∀ c ∈ d.name, isDotChar c = true := by
    unfold wfName at hn
    simp only [Bool.and_eq_true, List.all_eq_true] at hn
    exact hn.2
  have huset := wfUdid_chars d.udid hu
  have hstset := wfState_chars d.state hs
  constructor
  · simp [renderDev]
  · unfold renderDev
    intro c hc
    rcases List.mem_append.mp hc with h1 | h2
    · exact hnd c h1
    · rcases List.mem_cons.mp h2 with rfl | h3
      · decide
      · rcases List.mem_cons.mp h3 with rfl | h4
        · decide
        · rcases List.mem_append.mp h4 with h5 | h6
          · rcases huset c h5 with hw | rfl
            · exact wordChar_dot c hw
            · decide
          · rcases List.mem_cons.mp h6 with rfl | h7
            · decide
            · rcases List.mem_cons.mp h7 with rfl | h8
              · decide
              · rcases List.mem_cons.mp h8 with rfl | h9
                · decide
                · rcases List.mem_append.mp h9 with h10 | h11
                  · rcases hstset c h10 with hw | rfl
                    · exact wordChar_dot c hw
                    · decide
                  · rcases List.mem_cons.mp h11 with rfl | h12
                    · decide
                    · cases h12

theorem splitAnywhere_cons (c : Char) (t : List Char) :
    splitAnywhere (c :: t) = match splitAnywhere t with
      | some p => some (c :: p.1, p.2)
      | none =>
        if " --".toList.isPrefixOf (c :: t) then some ([], (c :: t).drop 3)
        else none := rfl

/-- The greedy `(.+) --` split of a string that ends in ` --`: the capture is
everything before the trailing literal. -/
theorem splitAnywhere_suffix (x : List Char) :
    splitAnywhere (x ++ " --".toList) = some (x, []) := by
  induction x with
  | nil => rfl
  | cons c t ih =>
    rw [List.cons_append, splitAnywhere_cons, ih]

theorem splitLastDashes_suffix (x : List Char) (hx : x ≠ []) :
    splitLastDashes (x ++ " --".toList) = some (x, []) := by
  cases x with
  | nil => exact absurd rfl hx
  | cons c t =>
    rw [List.cons_append]
    show (splitAnywhere (t ++ " --".toList)).map (fun p => (c :: p.1, p.2))
      = some (c :: t, [])
    rw [splitAnywhere_suffix t]
    rfl

theorem renderBodies_length_ge (bodies : List (List Char)) (rest : List Char) :
    bodies.length ≤ (renderBodies bodies rest).length := by
  induction bodies with
  | nil => simp [renderBodies]
  | cons b bs ih =>
    simp only [renderBodies, List.length_cons, List.length_append]
    omega

/-- The continuation star consumes exactly the rendered device lines and
stops at the rest (which is empty or starts a new header line). -/
theorem starLoopF_render (rest : List Char)
    (hrest : rest = [] ∨ ∃ t2, rest = '\n' :: '-' :: t2)
    (bodies : List (List Char)) :
    ∀ fuel : Nat,
      (∀ b ∈ bodies, b ≠ [] ∧ ∀ c ∈ b, isDotChar c = true) →
      bodies.length ≤ fuel →
      starLoopF fuel (renderBodies bodies rest)
        = (renderBodies bodies [], rest) := by
  induction bodies with
  | nil =>
    intro fuel _ _
    show starLoopF fuel rest = ([], rest)
    cases fuel with
    | zero => rfl
    | succ f =>
      rw [starLoopF_succ]
      rcases hrest with rfl | ⟨t2, rfl⟩
      · rfl
      · rcases t2 with - | ⟨a, t3⟩
        · rfl
        · rcases t3 with - | ⟨b, t4⟩
          · rfl
          · rcases t4 with - | ⟨e, t5⟩
            · rfl
            · dsimp only
              simp only [show isJsSpace '-' = false from by decide,
                Bool.false_and, Bool.false_eq_true, if_false]
  | cons b bs ih =>
    intro fuel hb hfl
    cases fuel with
    | zero => simp at hfl
    | succ f =>
      have hbne := (hb b (by simp)).1
      rw [show renderBodies (b :: bs) rest
          = '\n' :: ' ' :: ' ' :: ' ' :: ' ' :: (b ++ renderBodies bs rest)
          from rfl]
      rw [starLoopF_succ]
      dsimp only
      simp only [show isJsSpace ' ' = true from by decide, Bool.and_self,
        if_true]
      have hstop : (b ++ renderBodies bs rest).takeWhile isDotChar = b := by
        apply takeWhile_append_stop _ _ _ (hb b (by simp)).2
        cases bs with
        | nil =>
          rcases hrest with rfl | ⟨t2, rfl⟩
          · exact Or.inl rfl
          · exact Or.inr ⟨'\n', '-' :: t2, rfl, by decide⟩
        | cons b2 bs2 =>
          exact Or.inr
            ⟨'\n', ' ' :: ' ' :: ' ' :: ' ' :: (b2 ++ renderBodies bs2 rest),
              rfl, by decide⟩
      rw [hstop]
      have hbe : b.isEmpty = false := by
        cases b with
        | nil => exact absurd rfl hbne
        | cons y ys => rfl
      rw [hbe]
      simp only [Bool.false_eq_true, if_false]
      rw [List.drop_left]
      rw [ih f (fun b2 hb2 => hb b2 (List.mem_cons_of_mem _ hb2))
        (by simpa using Nat.le_of_succ_le_succ (by simpa using hfl))]
      rfl

theorem starLoop_render (rest : List Char)
    (hrest : rest = [] ∨ ∃ t2, rest = '\n' :: '-' :: t2)
    (bodies : List (List Char))
    (hb : ∀ b ∈ bodies, b ≠ [] ∧ ∀ c ∈ b, isDotChar c = true) :
    starLoop (renderBodies bodies rest) = (renderBodies bodies [], rest) := by
  unfold starLoop
  exact starLoopF_render rest hrest bodies _ hb (renderBodies_length_ge _ _)

theorem wfSection_parts (s : SectionSpec) (hwf : wfSection s = true) :
    wfSdk s.sdk = true ∧ ∀ d ∈ s.devices, wfDev d = true := by
  unfold wfSection at hwf
  simp only [Bool.and_eq_true, List.all_eq_true] at hwf
  exact hwf

theorem wfSdk_ne_nil (v : List Char) (h : wfSdk v = true) : v ≠ [] := by
  intro hnil
  rw [hnil] at h
  exact absurd h (by decide)

theorem wfSdk_dot (v : List Char) (h : wfSdk v = true) :
    ∀ c ∈ v, isDotChar c = true := by
  unfold wfSdk at h
  simp only [Bool.and_eq_true, List.all_eq_true] at h
  exact h.1.2

/-- The section pattern at a rendered section: it matches the whole rendered
section, captures the sdk version, and leaves exactly the trailing rest. -/
theorem tryMatchAt_section (s : SectionSpec) (rest : List Char)
    (hwf : wfSection s = true)
    (hrest : rest = [] ∨ ∃ t2, rest = '\n' :: '-' :: t2) :
    tryMatchAt (renderSection s rest)
      = some (⟨headerLit ++ s.sdk ++ " --".toList
          ++ renderBodies (s.devices.map renderDev) [], s.sdk⟩, rest) := by
  obtain ⟨hsdk, hdevs⟩ := wfSection_parts s hwf
  have hsdkne : s.sdk ≠ [] := wfSdk_ne_nil s.sdk hsdk
  have hsdkdot := wfSdk_dot s.sdk hsdk
  have hlit : (" --".toList : List Char) = [' ', '-', '-'] := rfl
  have hsec : renderSection s rest
      = headerLit ++ (s.sdk ++ " --".toList
          ++ renderBodies (s.devices.map renderDev) rest) := by
    unfold renderSection
    simp [List.append_assoc]
  have hbodies : ∀ b ∈ s.devices.map renderDev,
      b ≠ [] ∧ ∀ c ∈ b, isDotChar c = true := by
    intro b hbm
    obtain ⟨d, hd, rfl⟩ := List.mem_map.mp hbm
    exact renderDev_dot d (hdevs d hd)
  have hstop : ((s.sdk ++ " --".toList)
        ++ renderBodies (s.devices.map renderDev) rest).takeWhile isDotChar
      = s.sdk ++ " --".toList := by
    apply takeWhile_append_stop
    · intro c hc
      rcases List.mem_append.mp hc with h1 | h2
      · exact hsdkdot c h1
      · rw [hlit] at h2
        rcases List.mem_cons.mp h2 with rfl | h3
        · decide
        · rcases List.mem_cons.mp h3 with rfl | h4
          · decide
          · rcases List.mem_cons.mp h4 with rfl | h5
            · decide
            · cases h5
    · cases hml : s.devices.map renderDev with
      | nil =>
        rcases hrest with rfl | ⟨t2, rfl⟩
        · exact Or.inl rfl
        · exact Or.inr ⟨'\n', '-' :: t2, rfl, by decide⟩
      | cons b bs =>
        exact Or.inr
          ⟨'\n', ' ' :: ' ' :: ' ' :: ' ' :: (b ++ renderBodies bs rest),
            rfl, by decide⟩
  have hdrop7 : (headerLit ++ (s.sdk ++ " --".toList
        ++ renderBodies (s.devices.map renderDev) rest)).drop 7
      = (s.sdk ++ " --".toList)
        ++ renderBodies (s.devices.map renderDev) rest := by
    rw [show (7 : Nat) = headerLit.length from rfl]
    exact List.drop_left _ _
  have hdropA : ((s.sdk ++ " --".toList)
        ++ renderBodies (s.devices.map renderDev) rest).drop (s.sdk.length + 3)
      = renderBodies (s.devices.map renderDev) rest := by
    rw [show s.sdk.length + 3 = (s.sdk ++ " --".toList).length from by
      rw [hlit]
      simp]
    exact List.drop_left _ _
  have hpre : headerLit.isPrefixOf (headerLit ++ (s.sdk ++ " --".toList
      ++ renderBodies (s.devices.map renderDev) rest)) = true :=
    List.isPrefixOf_iff_prefix.mpr (List.prefix_append _ _)
  rw [hsec]
  unfold tryMatchAt
  rw [if_pos hpre]
  dsimp only
  rw [hdrop7, hstop, splitLastDashes_suffix s.sdk hsdkne]
  dsimp only
  rw [hdropA, starLoop_render rest hrest _ hbodies]

/-- The section pattern cannot start at a character other than a hyphen. -/
theorem tryMatchAt_not_dash (c : Char) (t : List Char) (hc : c ≠ '-') :
    tryMatchAt (c :: t) = none := by
  by_cases hp : headerLit.isPrefixOf (c :: t)
  · exfalso
    obtain ⟨k, hk⟩ := List.isPrefixOf_iff_prefix.mp hp
    rw [show (headerLit : List Char) = '-' :: "- iOS ".toList from rfl,
      List.cons_append] at hk
    injection hk with h1 _
    exact hc h1.symm
  · unfold tryMatchAt
    rw [if_neg hp]

theorem execFrom_cons_none (c : Char) (t : List Char)
    (h : tryMatchAt (c :: t) = none) : execFrom (c :: t) = execFrom t := by
  show (match tryMatchAt (c :: t) with
    | some mr => some mr
    | none => execFrom t) = execFrom t
  rw [h]

theorem execFrom_eq_some (cs : List Char) (mr : SecMatch × List Char)
    (hne : cs ≠ []) (h : tryMatchAt cs = some mr) : execFrom cs = some mr := by
  cases cs with
  | nil => exact absurd rfl hne
  | cons c t =>
    show (match tryMatchAt (c :: t) with
      | some mr => some mr
      | none => execFrom t) = some mr
    rw [h]

theorem execAllF_nil (fuel : Nat) : execAllF fuel [] = [] := by
  cases fuel <;> rfl

theorem execAllF_succ_skip (f : Nat) (c : Char) (t : List Char)
    (h : tryMatchAt (c :: t) = none) :
    execAllF (f + 1) (c :: t) = execAllF (f + 1) t := by
  show (match execFrom (c :: t) with
    | none => []
    | some mr => mr.1 :: execAllF f mr.2) = execAllF (f + 1) t
  rw [execFrom_cons_none c t h]
  rfl

theorem renderBodies_length_rest (bodies : List (List Char)) (rest : List Char) :
    rest.length ≤ (renderBodies bodies rest).length := by
  induction bodies with
  | nil => simp [renderBodies]
  | cons b bs ih =>
    simp only [renderBodies, List.length_cons, List.length_append]
    omega

theorem renderSection_length_ge (s : SectionSpec) (rest : List Char) :
    rest.length + 10 ≤ (renderSection s rest).length := by
  have h1 := renderBodies_length_rest (s.devices.map renderDev) rest
  have h2 : (headerLit : List Char).length = 7 := rfl
  have h3 : (" --".toList : List Char).length = 3 := rfl
  unfold renderSection
  simp only [List.length_append, h2, h3]
  omega

theorem renderSection_ne_nil (s : SectionSpec) (rest : List Char) :
    renderSection s rest ≠ [] := by
  intro h
  have := renderSection_length_ge s rest
  rw [h] at this
  simp at this

/-- One step of the global scan over a rendered section: the section is
consumed as one match and the scan resumes at the rest. -/
theorem execAllF_section_step (s : SectionSpec) (rest : List Char) (f : Nat)
    (hws : wfSection s = true)
    (hrest : rest = [] ∨ ∃ t2, rest = '\n' :: '-' :: t2) :
    execAllF (f + 1) (renderSection s rest)
      = ⟨headerLit ++ s.sdk ++ " --".toList
          ++ renderBodies (s.devices.map renderDev) [], s.sdk⟩
        :: execAllF f rest := by
  show (match execFrom (renderSection s rest) with
    | none => []
    | some mr => mr.1 :: execAllF f mr.2) = _
  rw [execFrom_eq_some _ _ (renderSection_ne_nil s rest)
    (tryMatchAt_section s rest hws hrest)]

theorem renderSections_head_dash (s2 : SectionSpec) (ss2 : List SectionSpec) :
    ∃ t2, renderSections (s2 :: ss2) = '-' :: t2 := by
  show ∃ t2, renderSection s2 _ = '-' :: t2
  unfold renderSection
  rw [show (headerLit : List Char) = '-' :: "- iOS ".toList from rfl,
    List.cons_append, List.cons_append, List.cons_append]
  exact ⟨_, rfl⟩

/-- All matches of the section pattern over a rendered listing, in order. -/
theorem execAllF_render (secs : List SectionSpec) :
    ∀ fuel : Nat, (∀ s ∈ secs, wfSection s = true) →
      (renderSections secs).length < fuel →
      execAllF fuel (renderSections secs)
        = secs.map (fun s =>
            (⟨headerLit ++ s.sdk ++ " --".toList
              ++ renderBodies (s.devices.map renderDev) [], s.sdk⟩ : SecMatch)) := by
  induction secs with
  | nil =>
    intro fuel _ hf
    cases fuel with
    | zero => omega
    | succ f => rfl
  | cons s ss ih =>
    intro fuel hwf hf
    have hws : wfSection s = true := hwf s (by simp)
    have hwss : ∀ s2 ∈ ss, wfSection s2 = true :=
      fun s2 h2 => hwf s2 (List.mem_cons_of_mem _ h2)
    cases fuel with
    | zero => omega
    | succ f =>
      cases ss with
      | nil =>
        rw [show renderSections [s] = renderSection s [] from rfl] at hf ⊢
        rw [execAllF_section_step s [] f hws (Or.inl rfl), execAllF_nil]
        rfl
      | cons s2 ss2 =>
        obtain ⟨t2, hdash⟩ := renderSections_head_dash s2 ss2
        rw [show renderSections (s :: s2 :: ss2)
            = renderSection s ('\n' :: renderSections (s2 :: ss2)) from rfl]
          at hf ⊢
        rw [execAllF_section_step s ('\n' :: renderSections (s2 :: ss2)) f hws
          (Or.inr ⟨t2, by rw [hdash]⟩)]
        have hlen := renderSection_length_ge s ('\n' :: renderSections (s2 :: ss2))
        cases f with
        | zero =>
          exfalso
          simp only [List.length_cons] at hlen
          omega
        | succ f2 =>
          rw [execAllF_succ_skip f2 '\n' (renderSections (s2 :: ss2))
            (by
              rw [hdash]
              exact tryMatchAt_not_dash '\n' _ (by decide))]
          rw [ih (f2 + 1) hwss
            (by
              simp only [List.length_cons] at hlen
              omega)]
          rfl

theorem execAll_render (secs : List SectionSpec)
    (hwf : ∀ s ∈ secs, wfSection s = true) :
    execAll (renderSections secs)
      = secs.map (fun s =>
          (⟨headerLit ++ s.sdk ++ " --".toList
            ++ renderBodies (s.devices.map renderDev) [], s.sdk⟩ : SecMatch)) :=
  execAllF_render secs ((renderSections secs).length + 1) hwf (Nat.lt_succ_self _)

theorem dot_no_newline (l : List Char) (h : ∀ c ∈ l, isDotChar c = true) :
    '\n' ∉ l :=
  fun hm => absurd (h '\n' hm) (by decide)

/-- Splitting `match[0]` on newlines: the header line, then one line per
rendered device body, each with its 4-space indent. -/
theorem splitCh_renderBodies (bodies : List (List Char))
    (hb : ∀ b ∈ bodies, '\n' ∉ b) :
    ∀ A : List Char, '\n' ∉ A →
      splitCh '\n' (A ++ renderBodies bodies [])
        = A :: bodies.map (fun b => ' ' :: ' ' :: ' ' :: ' ' :: b) := by
  induction bodies with
  | nil =>
    intro A hA
    rw [show renderBodies [] [] = [] from rfl, List.append_nil]
    exact splitCh_no_sep '\n' A hA
  | cons b bs ih =>
    intro A hA
    rw [show renderBodies (b :: bs) []
        = '\n' :: ' ' :: ' ' :: ' ' :: ' ' :: (b ++ renderBodies bs [])
        from rfl]
    rw [splitCh_append_sep '\n' A _ hA]
    rw [show ' ' :: ' ' :: ' ' :: ' ' :: (b ++ renderBodies bs [])
        = (' ' :: ' ' :: ' ' :: ' ' :: b) ++ renderBodies bs [] from by simp]
    rw [ih (fun b2 h2 => hb b2 (List.mem_cons_of_mem _ h2))
      (' ' :: ' ' :: ' ' :: ' ' :: b)
      (by
        simp only [List.mem_cons, not_or]
        exact ⟨by decide, by decide, by decide, by decide, hb b (by simp)⟩)]
    rfl

theorem objSet_absent {α : Type} (m : List (String × α)) (k : String) (v : α)
    (h : ∀ p ∈ m, p.1 ≠ k) : objSet m k v = m ++ [(k, v)] := by
  unfold objSet
  rw [if_neg]
  intro hc
  simp only [List.any_eq_true, decide_eq_true_eq] at hc
  obtain ⟨p, hp, he⟩ := hc
  exact h p hp he

theorem objPush_append_last {α : Type} (acc : List (String × List α))
    (k : String) (v : List α) (r : α) (h : ∀ p ∈ acc, p.1 ≠ k) :
    objPush (acc ++ [(k, v)]) k r = acc ++ [(k, v ++ [r])] := by
  unfold objPush
  rw [List.map_append]
  congr 1
  · conv_rhs => rw [← List.map_id acc]
    apply List.map_congr_left
    intro p hp
    rw [if_neg (h p hp)]
    rfl
  · simp

theorem except_bind_ok {ε α β : Type} (a : α) (f : α → Except ε β) :
    ((Except.ok a : Except ε α) >>= f) = f a := rfl

/-- The per-line fold of one section: every device line parses and its record
is appended to the freshly reset entry of the section's sdk key. -/
theorem foldlM_pushLine (sdk : String) (ds : List DevSpec) :
    ∀ (acc : List (String × List DeviceRecord)) (v : List DeviceRecord),
      (∀ d ∈ ds, wfDev d = true) →
      (∀ p ∈ acc, p.1 ≠ sdk) →
      (ds.map (fun d => ' ' :: ' ' :: ' ' :: ' ' :: renderDev d)).foldlM
          (pushLine sdk) (acc ++ [(sdk, v)])
        = .ok (acc ++ [(sdk, v ++ ds.map (fun d =>
            (⟨String.mk d.name, String.mk d.udid, String.mk d.state, sdk⟩
              : DeviceRecord)))]) := by
  induction ds with
  | nil =>
    intro acc v _ _
    simp only [List.map_nil, List.foldlM_nil, List.append_nil]
    rfl
  | cons d t ih =>
    intro acc v hds habs
    have hstep : pushLine sdk (acc ++ [(sdk, v)])
        (' ' :: ' ' :: ' ' :: ' ' :: renderDev d)
        = .ok (acc ++ [(sdk, v
            ++ [⟨String.mk d.name, String.mk d.udid, String.mk d.state, sdk⟩])]) := by
      unfold pushLine
      rw [lineExec_indent d (hds d (by simp))]
      dsimp only
      rw [objPush_append_last acc sdk v _ habs]
    rw [List.map_cons, List.foldlM_cons, hstep, except_bind_ok]
    have hrest := ih acc
      (v ++ [⟨String.mk d.name, String.mk d.udid, String.mk d.state, sdk⟩])
      (fun d2 h2 => hds d2 (List.mem_cons_of_mem _ h2)) habs
    rw [hrest, List.append_assoc]
    rfl

/-- Processing one section match: the sdk key is appended fresh (it was not a
key of the accumulator) holding exactly the section's records, in order. -/
theorem processMatch_section (devices : List (String × List DeviceRecord))
    (s : SectionSpec) (hwf : wfSection s = true)
    (habs : ∀ p ∈ devices, p.1 ≠ String.mk s.sdk) :
    processMatch devices
        ⟨headerLit ++ s.sdk ++ " --".toList
          ++ renderBodies (s.devices.map renderDev) [], s.sdk⟩
      = .ok (devices ++ [(String.mk s.sdk,
          s.devices.map (fun d =>
            (⟨String.mk d.name, String.mk d.udid, String.mk d.state,
              String.mk s.sdk⟩ : DeviceRecord)))]) := by
  obtain ⟨hsdk, hdevs⟩ := wfSection_parts s hwf
  have hbnl : ∀ b ∈ s.devices.map renderDev, '\n' ∉ b := by
    intro b hbm
    obtain ⟨d, hd, rfl⟩ := List.mem_map.mp hbm
    exact dot_no_newline _ (renderDev_dot d (hdevs d hd)).2
  have hAnl : '\n' ∉ headerLit ++ s.sdk ++ " --".toList := by
    intro hm
    rcases List.mem_append.mp hm with h1 | h2
    · rcases List.mem_append.mp h1 with h3 | h4
      · exact absurd h3 (by decide)
      · exact dot_no_newline s.sdk (wfSdk_dot s.sdk hsdk) h4
    · exact absurd h2 (by decide)
  unfold processMatch
  dsimp only
  rw [splitCh_renderBodies (s.devices.map renderDev) hbnl
    (headerLit ++ s.sdk ++ " --".toList) hAnl]
  rw [List.drop_succ_cons, List.drop_zero]
  rw [objSet_absent devices (String.mk s.sdk) [] habs]
  rw [List.map_map]
  exact foldlM_pushLine (String.mk s.sdk) s.devices devices [] hdevs habs

/-- The fold of `for (match of matches)` over the rendered sections: each
section appends one fresh key, in order. -/
theorem foldlM_processMatch (secs : List SectionSpec) :
    ∀ acc : List (String × List DeviceRecord),
      (∀ s ∈ secs, wfSection s = true) →
      (∀ s ∈ secs, ∀ p ∈ acc, p.1 ≠ String.mk s.sdk) →
      (secs.map (fun s => String.mk s.sdk)).Nodup →
      (secs.map (fun s =>
          (⟨headerLit ++ s.sdk ++ " --".toList
            ++ renderBodies (s.devices.map renderDev) [], s.sdk⟩
            : SecMatch))).foldlM processMatch acc
        = .ok (acc ++ expectedInventory secs) := by
  induction secs with
  | nil =>
    intro acc _ _ _
    simp only [List.map_nil, List.foldlM_nil, expectedInventory,
      List.append_nil]
    rfl
  | cons s ss ih =>
    intro acc hwf habs hnd
    have hws : wfSection s = true := hwf s (by simp)
    have hstep := processMatch_section acc s hws (habs s (by simp))
    rw [List.map_cons, List.foldlM_cons, hstep, except_bind_ok]
    simp only [List.map_cons, List.nodup_cons] at hnd
    have habs2 : ∀ s2 ∈ ss, ∀ p ∈
        acc ++ [(String.mk s.sdk,
          s.devices.map (fun d =>
            (⟨String.mk d.name, String.mk d.udid, String.mk d.state,
              String.mk s.sdk⟩ : DeviceRecord)))], p.1 ≠ String.mk s2.sdk := by
      intro s2 h2 p hp
      rcases List.mem_append.mp hp with hp1 | hp2
      · exact habs s2 (List.mem_cons_of_mem _ h2) p hp1
      · rcases List.mem_cons.mp hp2 with rfl | hp3
        · intro he
          apply hnd.1
          have he2 : String.mk s.sdk = String.mk s2.sdk := he
          rw [he2]
          exact List.mem_map.mpr ⟨s2, h2, rfl⟩
        · cases hp3
    have hrest := ih _ (fun s2 h2 => hwf s2 (List.mem_cons_of_mem _ h2))
      habs2 hnd.2
    rw [hrest, List.append_assoc]
    rfl

/-- C1, amended.  For a listing rendered from well-formed sections with
pairwise-distinct sdk captures (headers of the shape `-- iOS <version> --`,
each followed by its 4-space-indented device lines), the Section-Format
parser returns the inventory with exactly one key per section, in order,
the i-th key being the i-th capture, holding that section's records in
order, each record's sdk field equal to the capture.  (The claim as frozen
is refuted by `getDevicesByParsing_cex`: headers of other platforms do not
match at all, and coinciding captures collapse into one reset key.) -/
theorem getDevicesByParsing_sections (secs : List SectionSpec)
    (hne : secs ≠ [])
    (hwf : ∀ s ∈ secs, wfSection s = true)
    (hnd : (secs.map (fun s => s.sdk)).Nodup) :
    getDevicesByParsing (String.mk (renderSections secs))
      = .ok (expectedInventory secs) := by
  have hndm : (secs.map (fun s => String.mk s.sdk)).Nodup := by
    have hinj : Function.Injective String.mk := by
      intro a b h
      injection h
    have := (hnd.map hinj : ((secs.map (fun s => s.sdk)).map String.mk).Nodup)
    rw [List.map_map] at this
    exact this
  have hlen : 1 ≤ secs.length := List.length_pos.mpr hne
  unfold getDevicesByParsing
  rw [show (String.mk (renderSections secs)).toList = renderSections secs
    from rfl]
  rw [execAll_render secs hwf]
  rw [if_neg (by simp only [List.length_map]; omega)]
  have := foldlM_processMatch secs []
    hwf (fun s _ p hp => absurd hp (List.not_mem_nil p)) hndm
  rw [this]
  rfl

/-- Witness for the amended C1 theorem at a concrete two-section listing. -/
theorem getDevicesByParsing_sections_witness :
    ([⟨"8.1".toList, [⟨"iPhone 6".toList, "AB-CD1".toList, "Shutdown".toList⟩,
        ⟨"iPad Air".toList, "EF-GH2".toList, "Shutting Down".toList⟩]⟩,
      ⟨"9.0".toList, [⟨"iPhone 6s".toList, "IJ-KL3".toList, "Booted".toList⟩]⟩]
      : List SectionSpec) ≠ []
    ∧ (∀ s ∈ ([⟨"8.1".toList,
          [⟨"iPhone 6".toList, "AB-CD1".toList, "Shutdown".toList⟩,
           ⟨"iPad Air".toList, "EF-GH2".toList, "Shutting Down".toList⟩]⟩,
        ⟨"9.0".toList,
          [⟨"iPhone 6s".toList, "IJ-KL3".toList, "Booted".toList⟩]⟩]
        : List SectionSpec), wfSection s = true)
    ∧ getDevicesByParsing (String.mk (renderSections
        [⟨"8.1".toList, [⟨"iPhone 6".toList, "AB-CD1".toList, "Shutdown".toList⟩,
           ⟨"iPad Air".toList, "EF-GH2".toList, "Shutting Down".toList⟩]⟩,
         ⟨"9.0".toList, [⟨"iPhone 6s".toList, "IJ-KL3".toList, "Booted".toList⟩]⟩]))
      = .ok (expectedInventory
        [⟨"8.1".toList, [⟨"iPhone 6".toList, "AB-CD1".toList, "Shutdown".toList⟩,
           ⟨"iPad Air".toList, "EF-GH2".toList, "Shutting Down".toList⟩]⟩,
         ⟨"9.0".toList, [⟨"iPhone 6s".toList, "IJ-KL3".toList, "Booted".toList⟩]⟩]) :=
  ⟨by decide, by decide,
    getDevicesByParsing_sections _ (by decide) (by decide) (by decide)⟩

end Simctl
